import Mathlib

/-!
# Jensen-Shannon divergence of two k-mer profiles (`JSD.cpp`)

A shallow embedding of `readFFP` and `runJSD` and the properties of the value they report.

* A C++ `double` is modelled in exact arithmetic over an ordered field `α` (the reals in the
  theorems, the rationals when a definition is evaluated).  `double.nan` stands for every result
  that is not a real number: the quotient by zero and the logarithm of a number that is not
  positive, and whatever is computed from them.  No operation of the program maps such a value
  back to a real number, so it is absorbing.  The sums, products and quotients of the program
  round to binary64; a statement that holds only without rounding says that it is over exact
  real arithmetic, and a statement that also holds of the rounded operations as long as no
  intermediate result leaves the range of the normal numbers bounds the quotients count/total.
* An `unordered_map<string, double>` is a list of entries; its iteration order is the list order
  and a new key goes to the end.  The accumulated value does not depend on the order in which
  the mixture map is traversed (`accumulate_perm`).  The library guarantees that no key occurs
  twice, which the theorems assume of a table that is not produced by the program itself
  (`m.keys.Nodup`).
* The text of a line is read as libstdc++ reads it in the classic locale; the number that a
  decimal text denotes is converted to the nearest binary64 number (`toDouble`), and a text
  that converts to an infinite number fails to be read.
* The natural logarithm is a parameter `lg`, instantiated with `Real.log`.
* The command line is an argument vector; a subscript of `arguments_vector` outside the vector
  is reported as undefined behaviour.  The file system is a function from paths to the content
  of the files that can be opened for reading, and a predicate on the paths that can be opened
  for writing.
-/

set_option autoImplicit false

set_option linter.unusedSectionVars false

namespace JSD

/-! ## Doubles -/

/-- A `double` in exact arithmetic: a number or a value that is not a real number.  The
operations below are those of the field `α`: they do not round, underflow or overflow as the
operations of binary64 do. -/
inductive double (α : Type) where
  | nan : double α
  | val : α → double α
  deriving DecidableEq, Repr

namespace double

variable {α : Type} [LinearOrderedField α]

/-- Sum `x + y`, exact. -/
def add : double α → double α → double α
  | val a, val b => val (a + b)
  | _, _ => nan

/-- Difference `x - y`, exact. -/
def sub : double α → double α → double α
  | val a, val b => val (a - b)
  | _, _ => nan

/-- Product `x * y`, exact. -/
def mul : double α → double α → double α
  | val a, val b => val (a * b)
  | _, _ => nan

/-- Quotient `x / y`, exact; dividing by zero does not give a real number. -/
def div : double α → double α → double α
  | val a, val b => if b = 0 then nan else val (a / b)
  | _, _ => nan

/-- Natural logarithm `log(x)` of `<cmath>`, a real number only for positive `x`. -/
def log (lg : α → α) : double α → double α
  | val a => if 0 < a then val (lg a) else nan
  | nan => nan

instance : Add (double α) := ⟨add⟩

instance : Sub (double α) := ⟨sub⟩

instance : Mul (double α) := ⟨mul⟩

instance : Div (double α) := ⟨div⟩

/-- Value-initialised `double`, as inserted by `operator[]` for a missing key. -/
instance : Zero (double α) := ⟨val 0⟩

end double

/-! ## Hash maps -/

/-- The type `unordered_map<string, β>`: the entries in iteration order. -/
abbrev Table (β : Type) := List (String × β)

namespace Table

variable {β : Type}

/-- Keys in iteration order. -/
def keys (m : Table β) : List String := m.map Prod.fst

/-- Call `m.find(k)`: the value stored under `k`, `none` for `m.end()`. -/
def find (m : Table β) (k : String) : Option β := m.lookup k

/-- Test `m.find(k) != m.end()`. -/
def contains (m : Table β) (k : String) : Bool := (m.find k).isSome

/-- Statement `m[k] = v`: overwrite the entry of `k` or insert a new one. -/
def assign : Table β → String → β → Table β
  | [], k, v => [(k, v)]
  | (k', v') :: m, k, v => if k' = k then (k, v) :: m else (k', v') :: assign m k v

/-- Expression `m[k]` read as a value: a missing key is inserted with a value-initialised
entry.  Returns the value and the map afterwards. -/
def subscript [Zero β] (m : Table β) (k : String) : β × Table β :=
  match m.find k with
  | some v => (v, m)
  | none => (0, m ++ [(k, 0)])

end Table

/-! ## Stream extraction (`<sstream>`) -/

/-- Whitespace of the classic locale (`std::isspace`). -/
def isspace (c : Char) : Bool :=
  c = ' ' || c = '\t' || c = '\n' || c = '\r' || c.toNat = 11 || c.toNat = 12

/-- Decimal digit. -/
def isdigit (c : Char) : Bool := 48 ≤ c.toNat && c.toNat ≤ 57

/-- Number denoted by a string of decimal digits. -/
def digitsValue (ds : List Char) : Nat := ds.foldl (fun n c => 10 * n + (c.toNat - 48)) 0

/-- Successive `getline(ffp_input, line)` calls until the stream fails: the lines of a text,
where a final line need not end in a newline. -/
def getlines : List Char → List (List Char)
  | [] => []
  | c :: cs =>
    if c = '\n' then [] :: getlines cs
    else
      match getlines cs with
      | [] => [[c]]
      | l :: ls => (c :: l) :: ls

/-- Extraction `ss >> sequence` into a string: skip whitespace, then take characters up to the
next whitespace; fails when no character is left.  Returns the token and the rest. -/
def extractString (cs : List Char) : Option (String × List Char) :=
  let cs1 := cs.dropWhile isspace
  let tok := cs1.takeWhile (fun c => !isspace c)
  if tok.isEmpty then none else some (String.mk tok, cs1.dropWhile (fun c => !isspace c))

/-- An optional sign: whether it is a minus, and the rest. -/
def extractSign : List Char → Bool × List Char
  | [] => (false, [])
  | c :: r => if c = '-' then (true, r) else if c = '+' then (false, r) else (false, c :: r)

/-- An optional decimal point with the digits after it: those digits, and the rest. -/
def extractFraction : List Char → List Char × List Char
  | [] => ([], [])
  | c :: r => if c = '.' then (r.takeWhile isdigit, r.dropWhile isdigit) else ([], c :: r)

/-- Apply a sign. -/
def signed (neg : Bool) (x : ℚ) : ℚ := if neg then -x else x

/-- The text of a number at the head of a stream that does not start with whitespace, as
`num_get` of libstdc++ accumulates it in the classic locale: an optional sign, digits with at
most one decimal point and, once a digit was seen, an exponent mark with an optional sign and
digits; the accumulated text must convert as a whole, so a mantissa without digit or an
exponent mark without digits fails.  Characters after the accumulated text stay in the stream.
Returns the number that the text denotes and the rest. -/
def scanNumber (cs : List Char) : Option (ℚ × List Char) :=
  let sg := extractSign cs
  let ip := sg.2.takeWhile isdigit
  let fr := extractFraction (sg.2.dropWhile isdigit)
  if ip.isEmpty && fr.1.isEmpty then none
  else
    let mant : ℚ := (digitsValue (ip ++ fr.1) : ℚ) / 10 ^ fr.1.length
    match fr.2 with
    | [] => some (signed sg.1 mant, [])
    | e :: r =>
      if e = 'e' || e = 'E' then
        let es := extractSign r
        let ed := es.2.takeWhile isdigit
        if ed.isEmpty then none
        else
          some (signed sg.1
              (if es.1 then mant / 10 ^ digitsValue ed else mant * 10 ^ digitsValue ed),
            es.2.dropWhile isdigit)
      else some (signed sg.1 mant, e :: r)

/-- Nearest integer to a rational number, a tie going to the even one. -/
def roundHalfEven (q : ℚ) : ℤ :=
  if q - ⌊q⌋ < 1 / 2 then ⌊q⌋
  else if 1 / 2 < q - ⌊q⌋ then ⌊q⌋ + 1
  else if ⌊q⌋ % 2 = 0 then ⌊q⌋ else ⌊q⌋ + 1

/-- Conversion of the accumulated text to `double` by `strtod`: the nearest number with 53
significant bits whose last bit has weight at least `2 ^ (-1074)`, a tie going to the even one
(IEEE 754 binary64, round to nearest); `none` when that number is not finite, that is when its
magnitude reaches `2 ^ 1024`.  A number too small in magnitude converts to a subnormal number
or to 0. -/
def toDouble (q : ℚ) : Option ℚ :=
  let e := max (Int.log 2 |q| - 52) (-1074)
  let r := (roundHalfEven (q / 2 ^ e) : ℚ) * 2 ^ e
  if 2 ^ 1024 ≤ |r| then none else some r

variable {α : Type} [LinearOrderedField α]

/-- The number at the head of a stream that does not start with whitespace: the accumulated
text is converted by `strtod`, and an infinite result sets `failbit`. -/
def extractNumber (cs : List Char) : Option (α × List Char) :=
  match scanNumber cs with
  | none => none
  | some (x, rest) =>
    match toDouble x with
    | none => none
    | some v => some ((v : α), rest)

/-- Extraction `ss >> count` into a `double`: skip whitespace, then read a number. -/
def extractDouble (cs : List Char) : Option (α × List Char) :=
  extractNumber (cs.dropWhile isspace)

/-- Condition `ss >> sequence >> count` on one line: the record taken from it, if any. -/
def extractRecord (line : List Char) : Option (String × α) :=
  match extractString line with
  | none => none
  | some (sequence, rest) =>
    match extractDouble rest with
    | none => none
    | some (count, _) => some (sequence, count)

/-! ## `readFFP` -/

/-- Body of the `while (getline ...)` loop of `readFFP` for one line. -/
def readLine (st : Table α × α) (line : List Char) : Table α × α :=
  match extractRecord line with
  | some (sequence, count) => (st.1.assign sequence count, st.2 + count)
  | none => st

/-- The loop of `readFFP` over the lines of an opened file, from the map and the sum passed in by
reference. -/
def readLines (ffp_map : Table α) (ffp_sum : α) (lines : List (List Char)) : Table α × α :=
  lines.foldl readLine (ffp_map, ffp_sum)

/-- Function `readFFP` on a file: `none` for a file that cannot be opened, where the program
prints the usage text and calls `exit(0)`; otherwise the map and the sum after the loop. -/
def readFFP (ffp_file : Option (List Char)) (ffp_map : Table α) (ffp_sum : α) :
    Option (Table α × α) :=
  match ffp_file with
  | some text => some (readLines ffp_map ffp_sum (getlines text))
  | none => none

/-! ## `runJSD` -/

open double in
/-- The two normalisation loops: `it->second = (it->second)/ffp_sum` for every entry. -/
def normalize (ffp_map : Table α) (ffp_sum : α) : Table (double α) :=
  ffp_map.map fun it => (it.1, val it.2 / val ffp_sum)

open double in
/-- Body of the first mixture loop, over the entries of `ffp1_map`; the state is
`(ffp2_map, affp_map)`. -/
def mixFirstStep (st : Table (double α) × Table (double α)) (it : String × double α) :
    Table (double α) × Table (double α) :=
  if st.1.contains it.1 then
    let r := st.1.subscript it.1
    (r.2, st.2.assign it.1 ((it.2 + r.1) / val 2))
  else (st.1, st.2.assign it.1 (it.2 / val 2))

open double in
/-- Body of the second mixture loop, over the entries of `ffp2_map`. -/
def mixSecondStep (ffp1_map : Table (double α)) (affp_map : Table (double α))
    (it : String × double α) : Table (double α) :=
  if ffp1_map.contains it.1 then affp_map else affp_map.assign it.1 (it.2 / val 2)

/-- The maps and the accumulator of `runJSD`. -/
structure State (α : Type) where
  ffp1_map : Table (double α)
  ffp2_map : Table (double α)
  affp_map : Table (double α)
  JSD_value : double α

open double in
/-- Body of the accumulation loop, over the entries of `affp_map`. -/
def accumulateStep (lg : α → α) (st : State α) (it : String × double α) : State α :=
  let j0 := st.JSD_value - it.2 * log lg it.2 / log lg (val 2)
  let st1 : State α :=
    if st.ffp1_map.contains it.1 then
      let a := st.ffp1_map.subscript it.1
      let b := a.2.subscript it.1
      { st with ffp1_map := b.2, JSD_value := j0 + val (1 / 2) * a.1 * log lg b.1 / log lg (val 2) }
    else { st with JSD_value := j0 }
  if st1.ffp2_map.contains it.1 then
    let a := st1.ffp2_map.subscript it.1
    let b := a.2.subscript it.1
    { st1 with
      ffp2_map := b.2,
      JSD_value := st1.JSD_value + val (1 / 2) * a.1 * log lg b.1 / log lg (val 2) }
  else st1

open double in
/-- Lines 213 to 250 of `runJSD`: normalise both maps, build the mixture map, accumulate the
divergence.  Returns the final maps and `JSD_value`. -/
def computeJSD (lg : α → α) (table1 : Table α) (sum1 : α) (table2 : Table α) (sum2 : α) :
    State α :=
  let ffp1_map := normalize table1 sum1
  let ffp2_map := normalize table2 sum2
  let m1 := ffp1_map.foldl mixFirstStep (ffp2_map, [])
  let affp_map := m1.1.foldl (mixSecondStep ffp1_map) m1.2
  affp_map.foldl (accumulateStep lg)
    { ffp1_map := ffp1_map, ffp2_map := m1.1, affp_map := affp_map, JSD_value := val 0 }

/-- What a run of `runJSD` leaves behind. -/
structure Outcome (α : Type) where
  /-- Whether the usage text was printed. -/
  usagePrinted : Bool
  /-- The value of the `JSD value=` line on the console, if one was printed. -/
  console : Option (double α)
  /-- The value of the `JSD value=` line in the output file, if the file was opened and the
  line written to it. -/
  outputFile : Option (double α)
  /-- The status passed to `exit`, if the run ended there. -/
  exitStatus : Option Nat

/-- Function `runJSD` on the contents of the two profile files (`none`: cannot be opened).
The sums are uninitialised locals of the source; `u1` and `u2` are the values they hold when
`readFFP` starts adding to them.  `writable` tells whether `ofstream` can open the output file:
the stream is not checked, and what is sent to a stream that is not open is lost. -/
def runJSD (lg : α → α) (u1 u2 : α) (ffp1_file ffp2_file : Option (List Char))
    (writable : Bool) : Outcome α :=
  match readFFP ffp1_file [] u1 with
  | none => { usagePrinted := true, console := none, outputFile := none, exitStatus := some 0 }
  | some (ffp1_map, ffp1_sum) =>
    match readFFP ffp2_file [] u2 with
    | none => { usagePrinted := true, console := none, outputFile := none, exitStatus := some 0 }
    | some (ffp2_map, ffp2_sum) =>
      let st := computeJSD lg ffp1_map ffp1_sum ffp2_map ffp2_sum
      { usagePrinted := false, console := some st.JSD_value,
        outputFile := if writable then some st.JSD_value else none, exitStatus := none }

/-! ## The shape of a line, in the words of the format description -/

/-- The whitespace-separated tokens of a line. -/
def tokens : List Char → List (List Char)
  | [] => []
  | c :: cs =>
    if isspace c then tokens cs
    else
      match cs with
      | [] => [[c]]
      | d :: _ =>
        if isspace d then [c] :: tokens cs
        else
          match tokens cs with
          | [] => [[c]]
          | t :: ts => (c :: t) :: ts

/-- Where the reading of a number stands. -/
inductive NumState where
  | start
  | signSeen
  | intDigits
  | pointOnly
  | fracDigits
  | expMark
  | expSign
  | expDigits
  deriving DecidableEq, Repr

/-- What a character does to the reading of a number: go on, or stop with a verdict. -/
inductive NumStep where
  | goto (s : NumState)
  | stop (accept : Bool)

/-- States in which the text read so far is a complete number. -/
def NumState.accepting : NumState → Bool
  | .intDigits => true
  | .fracDigits => true
  | .expDigits => true
  | _ => false

/-- One character of a number: an optional sign, digits with at most one decimal point and at
least one digit, then possibly an exponent mark, which must be followed by an optional sign and
at least one digit.  The first character that cannot continue the number ends the reading. -/
def numStep : NumState → Char → NumStep
  | .start, c =>
    if c = '-' || c = '+' then .goto .signSeen
    else if isdigit c then .goto .intDigits
    else if c = '.' then .goto .pointOnly
    else .stop false
  | .signSeen, c =>
    if isdigit c then .goto .intDigits
    else if c = '.' then .goto .pointOnly
    else .stop false
  | .intDigits, c =>
    if isdigit c then .goto .intDigits
    else if c = '.' then .goto .fracDigits
    else if c = 'e' || c = 'E' then .goto .expMark
    else .stop true
  | .pointOnly, c => if isdigit c then .goto .fracDigits else .stop false
  | .fracDigits, c =>
    if isdigit c then .goto .fracDigits
    else if c = 'e' || c = 'E' then .goto .expMark
    else .stop true
  | .expMark, c =>
    if c = '-' || c = '+' then .goto .expSign
    else if isdigit c then .goto .expDigits
    else .stop false
  | .expSign, c => if isdigit c then .goto .expDigits else .stop false
  | .expDigits, c => if isdigit c then .goto .expDigits else .stop true

/-- Whether a text begins with a number, from a given state of the reading. -/
def beginsNumber : NumState → List Char → Bool
  | s, [] => s.accepting
  | s, c :: r =>
    match numStep s c with
    | .goto s' => beginsNumber s' r
    | .stop b => b

/-- A line of the shape that yields a record: at least two tokens, the second of which begins
with a number. -/
def lineAccepted (line : List Char) : Bool :=
  match tokens line with
  | _ :: t :: _ => beginsNumber .start t
  | _ => false

/-- A malformed line: blank, without a count token, or with a count token that does not begin
with a number. -/
def malformed (line : List Char) : Bool :=
  match tokens line with
  | [] => true
  | [_] => true
  | _ :: t :: _ => !beginsNumber .start t

/-- The number that the second token of a line begins with, if the line has two tokens and the
second begins with a number. -/
def countText (line : List Char) : Option ℚ :=
  match tokens line with
  | _ :: t2 :: _ => (scanNumber t2).map fun p => p.1
  | _ => none

/-- The midpoint between the largest finite `double` and `2 ^ 1024`: the least magnitude that
converts to an infinite `double`. -/
def overflowBound : ℚ := 2 ^ 1024 - 2 ^ 970

/-- The text made of the given lines, each ended by a newline. -/
def unlines : List (List Char) → List Char
  | [] => []
  | l :: ls => l ++ '\n' :: unlines ls

/-- The records of the well-formed lines, in order. -/
def records {α : Type} [LinearOrderedField α] (lines : List (List Char)) : List (String × α) :=
  lines.filterMap extractRecord

/-- Acceptance of the text after a mantissa: an exponent mark must be followed by digits. -/
def afterMantissa : List Char → Bool
  | [] => true
  | e :: r =>
    if e = 'e' || e = 'E' then !((extractSign r).2.takeWhile isdigit).isEmpty else true

/-! ## Notions used in the statements and in the proofs -/

section Derived

variable {α : Type} [LinearOrderedField α]

open double

/-- Negation, used to write `x - y` as a sum. -/
def double.neg : double α → double α
  | val a => val (-a)
  | nan => nan

/-- Doubles under addition: the value that is not a number absorbs, zero is neutral. -/
instance : AddCommMonoid (double α) where
  add_assoc x y z := by
    cases x <;> cases y <;> cases z <;> first | rfl | exact congrArg val (add_assoc _ _ _)
  zero_add x := by
    cases x <;> first | rfl | exact congrArg val (zero_add _)
  add_zero x := by
    cases x <;> first | rfl | exact congrArg val (add_zero _)
  add_comm x y := by
    cases x <;> cases y <;> first | rfl | exact congrArg val (add_comm _ _)
  nsmul := nsmulRec

/-- Value that the first mixture loop stores for an entry of `ffp1_map`. -/
def mixFirstValue (n2 : Table (double α)) (it : String × double α) : double α :=
  match n2.find it.1 with
  | some q => (it.2 + q) / val 2
  | none => it.2 / val 2

/-- Value of the mixture map at key `k`, from the two normalised maps. -/
def mixValue (n1 n2 : Table (double α)) (k : String) : double α :=
  match n1.find k, n2.find k with
  | some p, some q => (p + q) / val 2
  | some p, none => p / val 2
  | none, some q => q / val 2
  | none, none => nan

/-- Keys of the mixture map in iteration order. -/
def unionKeys (n1 n2 : Table (double α)) : List String :=
  n1.keys ++ (n2.keys.filter fun k => !n1.contains k)

/-- The mixture map after the two mixture loops. -/
def mixture (n1 n2 : Table (double α)) : Table (double α) :=
  (n1.map fun it => (it.1, mixFirstValue n2 it))
    ++ (n2.filter fun it => !n1.contains it.1).map fun it => (it.1, it.2 / val 2)

/-- Half of `p log2 p` for the value stored under `k`, nothing for a missing key. -/
def halfTerm (lg : α → α) (n : Table (double α)) (k : String) : double α :=
  match n.find k with
  | some p => val (1 / 2) * p * log lg p / log lg (val 2)
  | none => 0

/-- What one iteration of the accumulation loop adds to `JSD_value` for the entry `(k, m)`. -/
def entryTerm (lg : α → α) (n1 n2 : Table (double α)) (it : String × double α) : double α :=
  neg (it.2 * log lg it.2 / log lg (val 2)) + halfTerm lg n1 it.1 + halfTerm lg n2 it.1

/-- What the accumulation loop adds for key `k` of the mixture map. -/
def keyTerm (lg : α → α) (n1 n2 : Table (double α)) (k : String) : double α :=
  entryTerm lg n1 n2 (k, mixValue n1 n2 k)

/-- Probability that the normalised table gives to key `k`, zero for a missing key. -/
def prob (t : Table α) (s : α) (k : String) : α :=
  match t.find k with
  | some c => c / s
  | none => 0

/-- Contribution of one key with probabilities `p` and `q` to the divergence. -/
def jsTerm (lg : α → α) (p q : α) : α :=
  -((p + q) / 2 * lg ((p + q) / 2) / lg 2) + 1 / 2 * p * lg p / lg 2 + 1 / 2 * q * lg q / lg 2

/-- The divergence as a sum over the keys of the mixture map. -/
def jsSum (lg : α → α) (t1 : Table α) (s1 : α) (t2 : Table α) (s2 : α) : α :=
  ((unionKeys (normalize t1 s1) (normalize t2 s2)).map fun k =>
    jsTerm lg (prob t1 s1 k) (prob t2 s2 k)).sum

/-- Sum of the counts stored in a table. -/
def tableSum {α : Type} [LinearOrderedField α] (t : Table α) : α := (t.map Prod.snd).sum

/-- The count of the last record that carries key `k`, if any. -/
def lastCount {α : Type} (rs : List (String × α)) (k : String) : Option α :=
  ((rs.filter fun r => r.1 = k).getLast?).map Prod.snd

/-- A text that is empty or starts with whitespace. -/
def endsToken (r : List Char) : Prop := r = [] ∨ ∃ c r', r = c :: r' ∧ isspace c = true

/-- Acceptance of a number after its sign, as the extraction decides it. -/
def mantissaAccepted (l : List Char) : Bool :=
  !((l.takeWhile isdigit).isEmpty && (extractFraction (l.dropWhile isdigit)).1.isEmpty)
    && afterMantissa (extractFraction (l.dropWhile isdigit)).2

end Derived

/-! ## Notions used in the statements about the loops of `runJSD` -/

section LoopNotions

variable {α : Type} [LinearOrderedField α]

open double

/-- The two mixture loops of `runJSD` on the normalised maps: `ffp2_map` and `affp_map`
afterwards. -/
def buildMixture (ffp1_map ffp2_map : Table (double α)) :
    Table (double α) × Table (double α) :=
  let m1 := ffp1_map.foldl mixFirstStep (ffp2_map, [])
  (m1.1, m1.1.foldl (mixSecondStep ffp1_map) m1.2)

/-- Lookup `D.get(k, 0)`: the stored value, zero for a missing key. -/
def getOrZero (D : Table (double α)) (k : String) : double α :=
  match D.find k with
  | some v => v
  | none => val 0

/-- Logarithm to base 2, `log(x) / log(2)`. -/
def log2 (lg : α → α) (x : double α) : double α := log lg x / log lg (val 2)

/-- Entropy in bits, `H(D) = -sum over the keys of D of D[k] * log2 D[k]`. -/
def entropy (lg : α → α) (D : Table (double α)) : double α :=
  neg ((D.map fun it => it.2 * log2 lg it.2).sum)

/-- Every count of a table multiplied by `c`. -/
def scaleTable (c : α) (t : Table α) : Table α := t.map fun it => (it.1, c * it.2)

/-- The arguments of the calls of `log` in one iteration of the accumulation loop, in the state
in which the iteration starts, the constant of `log(2)` included. -/
def logArguments (st : State α) (it : String × double α) : List (double α) :=
  [it.2, val 2]
    ++ (if st.ffp1_map.contains it.1 then
          [((st.ffp1_map.subscript it.1).2.subscript it.1).1, val 2]
        else [])
    ++ (if st.ffp2_map.contains it.1 then
          [((st.ffp2_map.subscript it.1).2.subscript it.1).1, val 2]
        else [])

/-- The arguments of all calls of `log` while the accumulation loop runs over the entries `l`
from the state `st`. -/
def logTrace (lg : α → α) : Table (double α) → State α → List (double α)
  | [], _ => []
  | it :: l, st => logArguments st it ++ logTrace lg l (accumulateStep lg st it)

/-- The arguments of all calls of `log` in `runJSD` on two tables and their totals. -/
def computeJSDLogs (lg : α → α) (table1 : Table α) (sum1 : α) (table2 : Table α) (sum2 : α) :
    List (double α) :=
  let ffp1_map := normalize table1 sum1
  let m := buildMixture ffp1_map (normalize table2 sum2)
  logTrace lg m.2 { ffp1_map := ffp1_map, ffp2_map := m.1, affp_map := m.2, JSD_value := val 0 }

end LoopNotions

/-! ## The command line (`initializeArguments`, `main`) -/

section CommandLine

/-- The variables that `initializeArguments` fills in. -/
structure Arguments where
  number_threads : Int
  ffp1_file : String
  ffp2_file : String
  output_file : String
  deriving DecidableEq, Repr

/-- How `initializeArguments` ends. -/
inductive ArgResult where
  /-- The loop ran to its end. -/
  | returned (a : Arguments)
  /-- The program left through `exit(status)`, with or without the usage text. -/
  | exited (status : Nat) (usagePrinted : Bool)
  /-- The subscript `arguments_vector[index]` was evaluated with `index` equal to the size of
  the vector, which is undefined behaviour. -/
  | outOfRange (index : Nat)
  deriving DecidableEq, Repr

/-- The value of `number_threads` after `std::stringstream(text) >> number_threads`, from the
value `prev` it holds before: when only whitespace is left nothing is stored; otherwise an
optional sign and decimal digits are read, a text without digit stores 0, and a number outside
the range of `int` stores the nearest bound. -/
def threadsAfter (prev : Int) (text : List Char) : Int :=
  match text.dropWhile isspace with
  | [] => prev
  | c :: cs =>
    let sg := extractSign (c :: cs)
    let ds := sg.2.takeWhile isdigit
    if ds.isEmpty then 0
    else
      let n : Int := if sg.1 then -(digitsValue ds : Int) else (digitsValue ds : Int)
      max (-2147483648) (min n 2147483647)

/-- The `for` loop of `initializeArguments` from index `i`, where `rest` holds the elements of
`arguments_vector` from index `i` on: `arguments_vector[i]` is the head of `rest` and
`arguments_vector[++i]` the element after it, which does not exist when the head is the last
element. -/
def argumentLoop : Nat → List String → Arguments → ArgResult
  | _, [], a => .returned a
  | i, [opt], _ =>
    if opt = "-f" ∨ opt = "-s" ∨ opt = "-o" ∨ opt = "-t" then .outOfRange (i + 1)
    else if opt = "-v" then .exited 0 false
    else if opt = "-h" then .exited 0 true
    else .exited 1 true
  | i, opt :: value :: rest, a =>
    if opt = "-f" then argumentLoop (i + 2) rest { a with ffp1_file := value }
    else if opt = "-s" then argumentLoop (i + 2) rest { a with ffp2_file := value }
    else if opt = "-o" then argumentLoop (i + 2) rest { a with output_file := value }
    else if opt = "-t" then
      if threadsAfter a.number_threads value.toList < 1 then .exited 1 false
      else
        argumentLoop (i + 2) rest
          { a with number_threads := threadsAfter a.number_threads value.toList }
    else if opt = "-v" then .exited 0 false
    else if opt = "-h" then .exited 0 true
    else .exited 1 true

/-- Function `initializeArguments` on the argument vector and the values that the variables
passed by reference hold at the call: `number_threads` is set to 1, then the arguments after
the program name are scanned. -/
def initializeArguments (argv : List String) (a : Arguments) : ArgResult :=
  argumentLoop 1 (argv.drop 1) { a with number_threads := 1 }

/-- How a run of the program ends. -/
inductive ProgramResult (α : Type) where
  /-- Undefined behaviour: a subscript outside `arguments_vector`, at the given index. -/
  | undefinedBehaviour (index : Nat)
  /-- The process ended with the given status; whether the usage text was printed, and the
  values of the `JSD value=` lines on the console and in the output file, if any. -/
  | ended (usagePrinted : Bool) (console outputFile : Option (double α)) (status : Nat)

variable {α : Type} [LinearOrderedField α]

/-- Function `main` on the argument vector.  `fs path` is the content of the file that
`ifstream` opens at `path`, `none` when it cannot be opened, and `wr path` tells whether
`ofstream` can open the file at `path`; `n0` is the content of the uninitialised
`number_threads`, and `u1`, `u2` that of the uninitialised sums.  A run that returns from
`main` ends with status 0. -/
def main (fs : String → Option (List Char)) (wr : String → Bool) (lg : α → α) (n0 : Int)
    (u1 u2 : α) (argv : List String) : ProgramResult α :=
  match initializeArguments argv
      { number_threads := n0, ffp1_file := "", ffp2_file := "", output_file := "JSD_out.txt" } with
  | .outOfRange index => .undefinedBehaviour index
  | .exited status usagePrinted => .ended usagePrinted none none status
  | .returned a =>
    let o := runJSD lg u1 u2 (fs a.ffp1_file) (fs a.ffp2_file) (wr a.output_file)
    .ended o.usagePrinted o.console o.outputFile (o.exitStatus.getD 0)

/-- An option with its value that lets the scan of the arguments go on: `-f`, `-s` or `-o`
with any value, or `-t` with a value that leaves a thread count of at least 1 (a count of at
least 1 read from the value, or a value of whitespace only, which keeps the count). -/
def validPair (p : String × String) : Prop :=
  p.1 = "-f" ∨ p.1 = "-s" ∨ p.1 = "-o" ∨ (p.1 = "-t" ∧ 1 ≤ threadsAfter 1 p.2.toList)

/-- The arguments made of the given options, each followed by its value. -/
def flattenPairs : List (String × String) → List String
  | [] => []
  | p :: ps => p.1 :: p.2 :: flattenPairs ps

/-- The variables after the scan of the given options with their values. -/
def applyPairs : List (String × String) → Arguments → Arguments
  | [], a => a
  | p :: ps, a =>
    applyPairs ps
      (if p.1 = "-f" then { a with ffp1_file := p.2 }
        else if p.1 = "-s" then { a with ffp2_file := p.2 }
        else if p.1 = "-o" then { a with output_file := p.2 }
        else { a with number_threads := threadsAfter a.number_threads p.2.toList })

/-- The options that `initializeArguments` recognises. -/
def knownOptions : List String := ["-f", "-s", "-o", "-t", "-v", "-h"]

end CommandLine

/-! ## The algebra of doubles -/

namespace double

variable {α : Type} [LinearOrderedField α]

@[simp] theorem val_add_val (a b : α) : (val a + val b : double α) = val (a + b) := rfl

@[simp] theorem val_sub_val (a b : α) : (val a - val b : double α) = val (a - b) := rfl

@[simp] theorem val_mul_val (a b : α) : (val a * val b : double α) = val (a * b) := rfl

@[simp] theorem nan_add (x : double α) : (nan + x : double α) = nan := rfl

@[simp] theorem add_nan (x : double α) : (x + nan : double α) = nan := by cases x <;> rfl

@[simp] theorem nan_sub (x : double α) : (nan - x : double α) = nan := rfl

@[simp] theorem sub_nan (x : double α) : (x - nan : double α) = nan := by cases x <;> rfl

@[simp] theorem nan_mul (x : double α) : (nan * x : double α) = nan := rfl

@[simp] theorem mul_nan (x : double α) : (x * nan : double α) = nan := by cases x <;> rfl

@[simp] theorem nan_div (x : double α) : (nan / x : double α) = nan := rfl

@[simp] theorem div_nan (x : double α) : (x / nan : double α) = nan := by cases x <;> rfl

theorem val_div_val (a b : α) :
    (val a / val b : double α) = if b = 0 then nan else val (a / b) := rfl

@[simp] theorem val_div_val_of_ne (a : α) {b : α} (h : b ≠ 0) :
    (val a / val b : double α) = val (a / b) := by
  rw [val_div_val, if_neg h]

@[simp] theorem log_nan (lg : α → α) : log lg (nan : double α) = nan := rfl

theorem log_val (lg : α → α) (a : α) : log lg (val a) = if 0 < a then val (lg a) else nan := rfl

@[simp] theorem log_val_of_pos (lg : α → α) {a : α} (h : 0 < a) : log lg (val a) = val (lg a) := by
  rw [log_val, if_pos h]

@[simp] theorem neg_val (a : α) : neg (val a) = val (-a) := rfl

@[simp] theorem neg_nan : neg (nan : double α) = nan := rfl

theorem zero_def : (0 : double α) = val 0 := rfl

theorem sub_def (x y : double α) : x - y = x + neg y := by
  cases x <;> cases y <;> simp [sub_eq_add_neg]

end double

/-! ## Maps without repeated key -/

namespace Table

variable {β : Type}

theorem find_nil (k : String) : find ([] : Table β) k = none := rfl

theorem find_cons (k' : String) (v : β) (m : Table β) (k : String) :
    find ((k', v) :: m) k = if k = k' then some v else find m k := by
  unfold find
  rw [List.lookup_cons]
  by_cases h : k = k'
  · simp [h]
  · have hb : (k == k') = false := by simpa using h
    simp [h, hb]

theorem find_eq_none_iff (m : Table β) (k : String) : find m k = none ↔ k ∉ m.keys := by
  induction m with
  | nil => simp [find_nil, keys]
  | cons e m ih =>
    obtain ⟨k', v⟩ := e
    rw [find_cons]
    by_cases h : k = k'
    · simp [h, keys]
    · simp only [h, if_false, ih]
      simp [keys, h]

theorem contains_iff (m : Table β) (k : String) : contains m k = true ↔ k ∈ m.keys := by
  unfold contains
  rw [← not_iff_not, ← find_eq_none_iff]
  cases find m k <;> simp

theorem contains_eq_false_iff (m : Table β) (k : String) : contains m k = false ↔ k ∉ m.keys := by
  rw [← contains_iff]
  simp

theorem find_of_mem {m : Table β} (hm : m.keys.Nodup) {e : String × β} (he : e ∈ m) :
    find m e.1 = some e.2 := by
  induction m with
  | nil => simp at he
  | cons e' m ih =>
    obtain ⟨k', v'⟩ := e'
    simp only [keys, List.map_cons, List.nodup_cons] at hm
    rw [find_cons]
    rcases List.mem_cons.1 he with rfl | h
    · simp
    · have hne : e.1 ≠ k' := by
        intro hk
        exact hm.1 (hk ▸ List.mem_map_of_mem Prod.fst h)
      simp only [hne, if_false]
      exact ih hm.2 h

theorem mem_of_find {m : Table β} {k : String} {v : β} (h : find m k = some v) : (k, v) ∈ m := by
  induction m with
  | nil => simp [find_nil] at h
  | cons e' m ih =>
    obtain ⟨k', v'⟩ := e'
    rw [find_cons] at h
    by_cases hk : k = k'
    · simp only [hk, if_true, Option.some.injEq] at h
      simp [hk, h]
    · simp only [hk, if_false] at h
      exact List.mem_cons_of_mem _ (ih h)

theorem assign_of_not_mem (m : Table β) (k : String) (v : β) (h : k ∉ m.keys) :
    assign m k v = m ++ [(k, v)] := by
  induction m with
  | nil => rfl
  | cons e m ih =>
    obtain ⟨k', v'⟩ := e
    simp only [keys, List.map_cons, List.mem_cons, not_or] at h
    have hne : ¬ k' = k := fun hk => h.1 hk.symm
    simp only [assign, hne, if_false, List.cons_append]
    rw [ih h.2]

theorem subscript_of_find [Zero β] {m : Table β} {k : String} {v : β} (h : find m k = some v) :
    subscript m k = (v, m) := by
  simp [subscript, h]

theorem keys_append (m n : Table β) : keys (m ++ n) = keys m ++ keys n := by
  simp [keys]

theorem keys_map_value {γ : Type} (m : Table β) (f : String × β → γ) :
    keys (m.map fun it => (it.1, f it)) = keys m := by
  simp [keys, Function.comp_def]

theorem find_map_value {γ : Type} (m : Table β) (f : β → γ) (k : String) :
    find (m.map fun it => (it.1, f it.2)) k = (find m k).map f := by
  induction m with
  | nil => rfl
  | cons e m ih =>
    obtain ⟨k', v⟩ := e
    simp only [List.map_cons, find_cons, ih]
    by_cases h : k = k' <;> simp [h]

end Table

/-! ## The loops of `runJSD` as maps and sums -/

section Loops

variable {α : Type} [LinearOrderedField α]

open double

theorem mixFirst_fold (n2 : Table (double α)) (l acc : Table (double α))
    (hl : l.keys.Nodup) (hacc : ∀ k ∈ l.keys, k ∉ acc.keys) :
    l.foldl mixFirstStep (n2, acc) = (n2, acc ++ l.map fun it => (it.1, mixFirstValue n2 it)) := by
  induction l generalizing acc with
  | nil => simp
  | cons e l ih =>
    simp only [Table.keys, List.map_cons, List.nodup_cons] at hl
    have hk : e.1 ∉ acc.keys := hacc e.1 (by simp [Table.keys])
    have hstep : mixFirstStep (n2, acc) e = (n2, acc ++ [(e.1, mixFirstValue n2 e)]) := by
      unfold mixFirstStep mixFirstValue
      cases hf : n2.find e.1 with
      | none =>
        simp [Table.contains, hf, Table.assign_of_not_mem _ _ _ hk]
      | some q =>
        simp [Table.contains, hf, Table.subscript_of_find hf, Table.assign_of_not_mem _ _ _ hk]
    rw [List.foldl_cons, hstep, ih _ hl.2]
    · simp
    · intro k hkl
      rw [Table.keys_append]
      simp only [Table.keys, List.map_cons, List.map_nil, List.mem_append, List.mem_singleton,
        not_or]
      refine ⟨hacc k (by simp [Table.keys]; exact Or.inr (by simpa [Table.keys] using hkl)), ?_⟩
      rintro rfl
      exact hl.1 hkl

theorem mixSecond_fold (n1 : Table (double α)) (l acc : Table (double α))
    (hl : l.keys.Nodup) (hacc : ∀ k ∈ l.keys, n1.contains k = false → k ∉ acc.keys) :
    l.foldl (mixSecondStep n1) acc
      = acc ++ (l.filter fun it => !n1.contains it.1).map fun it => (it.1, it.2 / val 2) := by
  induction l generalizing acc with
  | nil => simp
  | cons e l ih =>
    simp only [Table.keys, List.map_cons, List.nodup_cons] at hl
    rw [List.foldl_cons]
    cases hc : n1.contains e.1 with
    | true =>
      have hstep : mixSecondStep n1 acc e = acc := by simp [mixSecondStep, hc]
      rw [hstep, ih _ hl.2]
      · simp [List.filter_cons, hc]
      · intro k hkl
        exact hacc k (by simp [Table.keys]; exact Or.inr (by simpa [Table.keys] using hkl))
    | false =>
      have hk : e.1 ∉ acc.keys := hacc e.1 (by simp [Table.keys]) hc
      have hstep : mixSecondStep n1 acc e = acc ++ [(e.1, e.2 / val 2)] := by
        simp [mixSecondStep, hc, Table.assign_of_not_mem _ _ _ hk]
      rw [hstep, ih _ hl.2]
      · simp [List.filter_cons, hc]
      · intro k hkl hkc
        rw [Table.keys_append]
        simp only [Table.keys, List.map_cons, List.map_nil, List.mem_append, List.mem_singleton,
          not_or]
        refine ⟨hacc k (by simp [Table.keys]; exact Or.inr (by simpa [Table.keys] using hkl)) hkc,
          ?_⟩
        rintro rfl
        exact hl.1 hkl

theorem accumulateStep_eq (lg : α → α) (st : State α) (it : String × double α) :
    accumulateStep lg st it
      = { st with JSD_value := st.JSD_value + entryTerm lg st.ffp1_map st.ffp2_map it } := by
  obtain ⟨n1, n2, a, j⟩ := st
  unfold accumulateStep entryTerm halfTerm
  cases h1 : n1.find it.1 with
  | none =>
    cases h2 : n2.find it.1 with
    | none => simp [Table.contains, h1, h2, sub_def]
    | some q =>
      simp [Table.contains, h1, h2, sub_def, Table.subscript_of_find h2, add_assoc]
  | some p =>
    cases h2 : n2.find it.1 with
    | none => simp [Table.contains, h1, h2, sub_def, Table.subscript_of_find h1, add_assoc]
    | some q =>
      simp [Table.contains, h1, h2, sub_def, Table.subscript_of_find h1,
        Table.subscript_of_find h2, add_assoc]

theorem accumulate_fold (lg : α → α) (l : Table (double α)) (st : State α) :
    l.foldl (accumulateStep lg) st
      = { st with
          JSD_value := st.JSD_value + (l.map (entryTerm lg st.ffp1_map st.ffp2_map)).sum } := by
  induction l generalizing st with
  | nil => simp
  | cons e l ih =>
    rw [List.foldl_cons, accumulateStep_eq, ih]
    simp [add_assoc]

theorem accumulate_perm (lg : α → α) (l1 l2 : Table (double α)) (st : State α)
    (h : l1.Perm l2) :
    (l1.foldl (accumulateStep lg) st).JSD_value = (l2.foldl (accumulateStep lg) st).JSD_value := by
  rw [accumulate_fold, accumulate_fold]
  simp only
  rw [(h.map _).sum_eq]

theorem mixture_eq (n1 n2 : Table (double α)) (h1 : n1.keys.Nodup) (h2 : n2.keys.Nodup) :
    mixture n1 n2 = (unionKeys n1 n2).map fun k => (k, mixValue n1 n2 k) := by
  unfold mixture unionKeys
  rw [List.map_append]
  congr 1
  · simp only [Table.keys, List.map_map]
    apply List.map_congr_left
    intro e he
    simp only [Function.comp_apply, mixFirstValue, mixValue, Table.find_of_mem h1 he]
    cases n2.find e.1 <;> rfl
  · simp only [Table.keys, List.filter_map, List.map_map]
    apply List.map_congr_left
    intro e he
    have hmem := (List.mem_filter.1 he).1
    have hc := (List.mem_filter.1 he).2
    simp only [Function.comp_apply, Bool.not_eq_true', Table.contains_eq_false_iff] at hc
    have hn : n1.find e.1 = none := (Table.find_eq_none_iff _ _).2 hc
    simp only [Function.comp_apply, mixValue, hn, Table.find_of_mem h2 hmem]

theorem computeJSD_eq (lg : α → α) (table1 : Table α) (sum1 : α) (table2 : Table α) (sum2 : α)
    (h1 : table1.keys.Nodup) (h2 : table2.keys.Nodup) :
    computeJSD lg table1 sum1 table2 sum2
      = { ffp1_map := normalize table1 sum1,
          ffp2_map := normalize table2 sum2,
          affp_map := mixture (normalize table1 sum1) (normalize table2 sum2),
          JSD_value :=
            ((unionKeys (normalize table1 sum1) (normalize table2 sum2)).map
              (keyTerm lg (normalize table1 sum1) (normalize table2 sum2))).sum } := by
  have hn1 : (normalize table1 sum1).keys.Nodup := by
    unfold normalize
    rw [Table.keys_map_value]
    exact h1
  have hn2 : (normalize table2 sum2).keys.Nodup := by
    unfold normalize
    rw [Table.keys_map_value]
    exact h2
  unfold computeJSD
  simp only
  rw [mixFirst_fold _ _ _ hn1 (by simp [Table.keys])]
  simp only [List.nil_append]
  rw [mixSecond_fold _ _ _ hn2, accumulate_fold]
  · have hm : ((normalize table1 sum1).map fun it =>
          (it.1, mixFirstValue (normalize table2 sum2) it))
        ++ ((normalize table2 sum2).filter fun it => !(normalize table1 sum1).contains it.1).map
          (fun it => (it.1, it.2 / val 2))
        = mixture (normalize table1 sum1) (normalize table2 sum2) := rfl
    simp only [hm]
    rw [mixture_eq _ _ hn1 hn2]
    simp only [List.map_map, State.mk.injEq, true_and]
    rw [← zero_def, zero_add]
    rfl
  · intro k _ hc
    rw [Table.keys_map_value]
    exact (Table.contains_eq_false_iff _ _).1 hc

theorem mixValue_comm (n1 n2 : Table (double α)) (k : String) :
    mixValue n1 n2 k = mixValue n2 n1 k := by
  unfold mixValue
  cases n1.find k <;> cases n2.find k <;> simp [add_comm]

theorem keyTerm_comm (lg : α → α) (n1 n2 : Table (double α)) (k : String) :
    keyTerm lg n1 n2 k = keyTerm lg n2 n1 k := by
  unfold keyTerm entryTerm
  rw [mixValue_comm n1 n2 k, add_assoc, add_assoc, add_comm (halfTerm lg n1 k)]

theorem unionKeys_nodup (n1 n2 : Table (double α)) (h1 : n1.keys.Nodup) (h2 : n2.keys.Nodup) :
    (unionKeys n1 n2).Nodup := by
  unfold unionKeys
  refine List.Nodup.append h1 (h2.filter _) ?_
  intro k hk1 hk2
  have := (List.mem_filter.1 hk2).2
  simp only [Bool.not_eq_true', Table.contains_eq_false_iff] at this
  exact this hk1

theorem mem_unionKeys (n1 n2 : Table (double α)) (k : String) :
    k ∈ unionKeys n1 n2 ↔ k ∈ n1.keys ∨ k ∈ n2.keys := by
  unfold unionKeys
  simp only [List.mem_append, List.mem_filter, Bool.not_eq_true', Table.contains_eq_false_iff]
  tauto

theorem unionKeys_perm (n1 n2 : Table (double α)) (h1 : n1.keys.Nodup) (h2 : n2.keys.Nodup) :
    (unionKeys n1 n2).Perm (unionKeys n2 n1) := by
  rw [List.perm_ext_iff_of_nodup (unionKeys_nodup _ _ h1 h2) (unionKeys_nodup _ _ h2 h1)]
  intro k
  rw [mem_unionKeys, mem_unionKeys, or_comm]

end Loops

/-! ## The divergence as a sum of real numbers -/

section RealSum

variable {α : Type} [LinearOrderedField α]

open double

theorem sum_map_val {ι : Type} (l : List ι) (f : ι → α) :
    (l.map fun k => val (f k)).sum = val ((l.map f).sum) := by
  induction l with
  | nil => rfl
  | cons a l ih => simp [ih]

theorem find_normalize (t : Table α) (s : α) (k : String) :
    (normalize t s).find k = (t.find k).map fun c => val c / val s := by
  unfold normalize
  exact Table.find_map_value t (fun c => val c / val s) k

theorem keys_normalize (t : Table α) (s : α) : (normalize t s).keys = t.keys := by
  unfold normalize
  exact Table.keys_map_value t _

theorem ne_zero_of_div_pos {c s : α} (h : 0 < c / s) : s ≠ 0 := by
  rintro rfl
  simp at h

theorem halfTerm_normalize (lg : α → α) (t : Table α) (s : α) (k : String)
    (hq : ∀ e ∈ t, 0 < e.2 / s) (hlg : lg 2 ≠ 0) :
    halfTerm lg (normalize t s) k = val (1 / 2 * prob t s k * lg (prob t s k) / lg 2) := by
  unfold halfTerm prob
  rw [find_normalize]
  cases h : t.find k with
  | none => simp [zero_def]
  | some c =>
    have hcs : 0 < c / s := hq _ (Table.mem_of_find h)
    simp [ne_zero_of_div_pos hcs, hcs, hlg]

theorem keyTerm_normalize (lg : α → α) (t1 : Table α) (s1 : α) (t2 : Table α) (s2 : α)
    (hq1 : ∀ e ∈ t1, 0 < e.2 / s1) (hq2 : ∀ e ∈ t2, 0 < e.2 / s2)
    (hlg : lg 2 ≠ 0) (k : String) (hk : k ∈ unionKeys (normalize t1 s1) (normalize t2 s2)) :
    keyTerm lg (normalize t1 s1) (normalize t2 s2) k
      = val (jsTerm lg (prob t1 s1 k) (prob t2 s2 k)) := by
  unfold keyTerm entryTerm
  rw [halfTerm_normalize lg t1 s1 k hq1 hlg, halfTerm_normalize lg t2 s2 k hq2 hlg]
  have hm : mixValue (normalize t1 s1) (normalize t2 s2) k
      = val ((prob t1 s1 k + prob t2 s2 k) / 2) ∧ 0 < (prob t1 s1 k + prob t2 s2 k) / 2 := by
    unfold mixValue prob
    rw [find_normalize, find_normalize]
    cases h1 : t1.find k with
    | none =>
      cases h2 : t2.find k with
      | none =>
        exfalso
        rw [mem_unionKeys, keys_normalize, keys_normalize] at hk
        rcases hk with hk | hk
        · exact (Table.find_eq_none_iff _ _).1 h1 hk
        · exact (Table.find_eq_none_iff _ _).1 h2 hk
      | some c2 =>
        have hc : 0 < c2 / s2 := hq2 _ (Table.mem_of_find h2)
        simp only [Option.map_none', Option.map_some', zero_add]
        rw [val_div_val_of_ne _ (ne_zero_of_div_pos hc), val_div_val_of_ne _ (two_ne_zero)]
        exact ⟨rfl, by positivity⟩
    | some c1 =>
      have hc1 : 0 < c1 / s1 := hq1 _ (Table.mem_of_find h1)
      cases h2 : t2.find k with
      | none =>
        simp only [Option.map_none', Option.map_some', add_zero]
        rw [val_div_val_of_ne _ (ne_zero_of_div_pos hc1), val_div_val_of_ne _ (two_ne_zero)]
        exact ⟨rfl, by positivity⟩
      | some c2 =>
        have hc2 : 0 < c2 / s2 := hq2 _ (Table.mem_of_find h2)
        simp only [Option.map_some']
        rw [val_div_val_of_ne _ (ne_zero_of_div_pos hc1),
          val_div_val_of_ne _ (ne_zero_of_div_pos hc2), val_add_val,
          val_div_val_of_ne _ (two_ne_zero)]
        exact ⟨rfl, by positivity⟩
  rw [hm.1, log_val_of_pos lg hm.2, log_val_of_pos lg (two_pos), val_mul_val,
    val_div_val_of_ne _ hlg]
  simp [jsTerm]

theorem computeJSD_value (lg : α → α) (t1 : Table α) (s1 : α) (t2 : Table α) (s2 : α)
    (h1 : t1.keys.Nodup) (h2 : t2.keys.Nodup)
    (hq1 : ∀ e ∈ t1, 0 < e.2 / s1) (hq2 : ∀ e ∈ t2, 0 < e.2 / s2) (hlg : lg 2 ≠ 0) :
    (computeJSD lg t1 s1 t2 s2).JSD_value = val (jsSum lg t1 s1 t2 s2) := by
  rw [computeJSD_eq lg t1 s1 t2 s2 h1 h2]
  simp only
  unfold jsSum
  rw [← sum_map_val]
  congr 1
  apply List.map_congr_left
  intro k hk
  exact keyTerm_normalize lg t1 s1 t2 s2 hq1 hq2 hlg k hk

end RealSum

/-! ## Bounds on the contribution of one key -/

section Analysis

theorem log_two_pos : 0 < Real.log 2 := Real.log_pos (by norm_num)

theorem jsTerm_eq (p q : ℝ) :
    jsTerm Real.log p q
      = (1 / 2 * (p * Real.log p) + 1 / 2 * (q * Real.log q)
          - (p + q) / 2 * Real.log ((p + q) / 2)) / Real.log 2 := by
  unfold jsTerm
  ring

theorem jsTerm_nonneg (p q : ℝ) (hp : 0 ≤ p) (hq : 0 ≤ q) : 0 ≤ jsTerm Real.log p q := by
  have h := Real.convexOn_mul_log.2 (Set.mem_Ici.2 hp) (Set.mem_Ici.2 hq)
    (by norm_num : (0 : ℝ) ≤ 1 / 2) (by norm_num : (0 : ℝ) ≤ 1 / 2) (by norm_num)
  simp only [smul_eq_mul] at h
  have hm : 1 / 2 * p + 1 / 2 * q = (p + q) / 2 := by ring
  rw [hm] at h
  rw [jsTerm_eq]
  exact div_nonneg (by linarith) log_two_pos.le

theorem jsTerm_pos_of_ne (p q : ℝ) (hp : 0 ≤ p) (hq : 0 ≤ q) (hne : p ≠ q) :
    0 < jsTerm Real.log p q := by
  have h := Real.strictConvexOn_mul_log.2 (Set.mem_Ici.2 hp) (Set.mem_Ici.2 hq) hne
    (by norm_num : (0 : ℝ) < 1 / 2) (by norm_num : (0 : ℝ) < 1 / 2) (by norm_num)
  simp only [smul_eq_mul] at h
  have hm : 1 / 2 * p + 1 / 2 * q = (p + q) / 2 := by ring
  rw [hm] at h
  rw [jsTerm_eq]
  exact div_pos (by linarith) log_two_pos

theorem jsTerm_self (p : ℝ) : jsTerm Real.log p p = 0 := by
  rw [jsTerm_eq]
  have hm : (p + p) / 2 = p := by ring
  rw [hm]
  have : 1 / 2 * (p * Real.log p) + 1 / 2 * (p * Real.log p) - p * Real.log p = 0 := by ring
  rw [this, zero_div]

theorem jsTerm_zero_right (p : ℝ) (hp : 0 < p) : jsTerm Real.log p 0 = (p + 0) / 2 := by
  rw [jsTerm_eq]
  have hm : (p + 0) / 2 = p / 2 := by ring
  rw [hm, Real.log_div hp.ne' (by norm_num)]
  have hl := log_two_pos.ne'
  field_simp
  ring

end Analysis

/-! ## Sums of probabilities over the keys of the mixture map -/

section Sums

open double

theorem sum_map_eq_zero_iff {ι : Type} (l : List ι) (f : ι → ℝ) (h : ∀ x ∈ l, 0 ≤ f x) :
    (l.map f).sum = 0 ↔ ∀ x ∈ l, f x = 0 := by
  induction l with
  | nil => simp
  | cons a l ih =>
    have ha : 0 ≤ f a := h a (List.mem_cons_self _ _)
    have hl : ∀ x ∈ l, 0 ≤ f x := fun x hx => h x (List.mem_cons_of_mem _ hx)
    have hs : 0 ≤ (l.map f).sum := List.sum_nonneg (by
      intro y hy
      obtain ⟨x, hx, rfl⟩ := List.mem_map.1 hy
      exact hl x hx)
    simp only [List.map_cons, List.sum_cons, List.mem_cons, forall_eq_or_imp]
    rw [← ih hl]
    constructor
    · intro hsum
      exact ⟨by linarith, by linarith⟩
    · rintro ⟨h1, h2⟩
      rw [h1, h2, add_zero]

theorem prob_of_not_mem (t : Table ℝ) (s : ℝ) (k : String) (hk : k ∉ t.keys) :
    prob t s k = 0 := by
  unfold prob
  rw [(Table.find_eq_none_iff t k).2 hk]

theorem prob_pos_of_mem (t : Table ℝ) (s : ℝ) (k : String) (hq : ∀ e ∈ t, 0 < e.2 / s)
    (hk : k ∈ t.keys) : 0 < prob t s k := by
  unfold prob
  cases h : t.find k with
  | none => exact absurd hk ((Table.find_eq_none_iff t k).1 h)
  | some c => exact hq _ (Table.mem_of_find h)

theorem prob_nonneg (t : Table ℝ) (s : ℝ) (k : String) (hq : ∀ e ∈ t, 0 < e.2 / s) :
    0 ≤ prob t s k := by
  by_cases hk : k ∈ t.keys
  · exact (prob_pos_of_mem t s k hq hk).le
  · rw [prob_of_not_mem t s k hk]

theorem tableSum_pos_of_mem (t : Table ℝ) (hpos : ∀ e ∈ t, 0 < e.2) (e : String × ℝ)
    (he : e ∈ t) : 0 < tableSum t := by
  unfold tableSum
  apply List.sum_pos
  · intro y hy
    obtain ⟨x, hx, rfl⟩ := List.mem_map.1 hy
    exact hpos x hx
  · intro hnil
    rw [List.map_eq_nil_iff] at hnil
    rw [hnil] at he
    simp at he

theorem quotients_pos_of_sum (t : Table ℝ) (s : ℝ) (hpos : ∀ e ∈ t, 0 < e.2)
    (hsum : tableSum t = s) : ∀ e ∈ t, 0 < e.2 / s :=
  fun e he => div_pos (hpos e he) (hsum ▸ tableSum_pos_of_mem t hpos e he)

theorem quotients_pos (t : Table ℝ) (s : ℝ) (hpos : ∀ e ∈ t, 0 < e.2) (hs : 0 < s) :
    ∀ e ∈ t, 0 < e.2 / s :=
  fun e he => div_pos (hpos e he) hs

theorem counts_pos_of_range (t : Table ℝ) (s : ℝ) (hs : 0 < s)
    (hrange : ∀ e ∈ t, s / 2 ^ 1000 ≤ e.2 ∧ e.2 ≤ 2 ^ 1000 * s) : ∀ e ∈ t, 0 < e.2 :=
  fun e he => lt_of_lt_of_le (div_pos hs (by positivity)) (hrange e he).1

theorem jsSum_eq_zero_iff (t1 : Table ℝ) (s1 : ℝ) (t2 : Table ℝ) (s2 : ℝ)
    (hq1 : ∀ e ∈ t1, 0 < e.2 / s1) (hq2 : ∀ e ∈ t2, 0 < e.2 / s2) :
    jsSum Real.log t1 s1 t2 s2 = 0 ↔ ∀ k, prob t1 s1 k = prob t2 s2 k := by
  unfold jsSum
  rw [sum_map_eq_zero_iff _ _ (fun k _ =>
    jsTerm_nonneg _ _ (prob_nonneg t1 s1 k hq1) (prob_nonneg t2 s2 k hq2))]
  constructor
  · intro h k
    by_cases hk : k ∈ unionKeys (normalize t1 s1) (normalize t2 s2)
    · by_contra hne
      have := jsTerm_pos_of_ne _ _ (prob_nonneg t1 s1 k hq1) (prob_nonneg t2 s2 k hq2) hne
      rw [h k hk] at this
      exact lt_irrefl _ this
    · rw [mem_unionKeys, keys_normalize, keys_normalize, not_or] at hk
      rw [prob_of_not_mem t1 s1 k hk.1, prob_of_not_mem t2 s2 k hk.2]
  · intro h k _
    rw [h k, jsTerm_self]

theorem find_normalize_eq_iff (t1 : Table ℝ) (s1 : ℝ) (t2 : Table ℝ) (s2 : ℝ)
    (hq1 : ∀ e ∈ t1, 0 < e.2 / s1) (hq2 : ∀ e ∈ t2, 0 < e.2 / s2) (k : String) :
    (normalize t1 s1).find k = (normalize t2 s2).find k ↔ prob t1 s1 k = prob t2 s2 k := by
  rw [find_normalize, find_normalize]
  unfold prob
  cases h1 : t1.find k with
  | none =>
    cases h2 : t2.find k with
    | none => simp
    | some c2 =>
      have hc : 0 < c2 / s2 := hq2 _ (Table.mem_of_find h2)
      simp [hc.ne]
  | some c1 =>
    have hc1 : 0 < c1 / s1 := hq1 _ (Table.mem_of_find h1)
    cases h2 : t2.find k with
    | none => simp [hc1.ne']
    | some c2 =>
      have hc2 : 0 < c2 / s2 := hq2 _ (Table.mem_of_find h2)
      simp [ne_zero_of_div_pos hc1, ne_zero_of_div_pos hc2]

end Sums

/-! ## The value reported by `runJSD` -/

section Divergence

open double

/-- C1 (symmetry): for every two tables and totals, the normalise, mixture and accumulate steps
of `runJSD` give the same `JSD_value` on `(table1, sum1, table2, sum2)` and on
`(table2, sum2, table1, sum1)`; in particular the value is a real number on one side exactly
when it is one on the other. -/
theorem computeJSD_symmetric (table1 : Table ℝ) (sum1 : ℝ) (table2 : Table ℝ) (sum2 : ℝ)
    (h1 : table1.keys.Nodup) (h2 : table2.keys.Nodup) :
    (computeJSD Real.log table1 sum1 table2 sum2).JSD_value
      = (computeJSD Real.log table2 sum2 table1 sum1).JSD_value := by
  rw [computeJSD_eq _ _ _ _ _ h1 h2, computeJSD_eq _ _ _ _ _ h2 h1]
  simp only
  have hp := unionKeys_perm (normalize table1 sum1) (normalize table2 sum2)
    (by rw [keys_normalize]; exact h1) (by rw [keys_normalize]; exact h2)
  rw [(hp.map _).sum_eq]
  congr 1
  apply List.map_congr_left
  intro k _
  exact keyTerm_comm Real.log _ _ k

/-- Witness of C1 on the tables `x:2, y:2` and `x:4`. -/
theorem computeJSD_symmetric_witness :
    (computeJSD Real.log [("x", 2), ("y", 2)] 4 [("x", 4)] 4).JSD_value
      = (computeJSD Real.log [("x", 4)] 4 [("x", 2), ("y", 2)] 4).JSD_value :=
  computeJSD_symmetric [("x", 2), ("y", 2)] 4 [("x", 4)] 4 (by decide) (by decide)

/-- C3, as the claim states it, fails: the table `a:0, b:1` has non-negative counts and the
strictly positive total 1, and its divergence from itself is not 0, because the program takes
the logarithm of the zero probability of `a`. -/
theorem computeJSD_self_zero_count :
    (∀ e ∈ ([("a", 0), ("b", 1)] : Table ℝ), 0 ≤ e.2) ∧ (0 : ℝ) < 1 ∧
    tableSum ([("a", 0), ("b", 1)] : Table ℝ) = 1 ∧
    (computeJSD Real.log [("a", 0), ("b", 1)] 1 [("a", 0), ("b", 1)] 1).JSD_value ≠ val 0 := by
  refine ⟨by simp, by norm_num, by simp [tableSum], ?_⟩
  have h : (computeJSD Real.log [("a", 0), ("b", 1)] 1 [("a", 0), ("b", 1)] 1).JSD_value
      = nan := by
    simp [computeJSD, normalize, mixFirstStep, mixSecondStep, accumulateStep, Table.contains,
      Table.find, Table.assign, Table.subscript, List.lookup, log_val]
  rw [h]
  intro hv
  cases hv

/-- C3 (amended): for every table with a strictly positive total whose counts are strictly
positive and such that every quotient count/total lies between `2 ^ (-1000)` and `2 ^ 1000`
(so that no quotient, sum or product of the computation leaves the range of the normal
`double` numbers), the divergence of the table from itself (same table and same total on both
sides) is exactly 0. -/
theorem computeJSD_self (table : Table ℝ) (sum : ℝ) (h : table.keys.Nodup) (hs : 0 < sum)
    (hrange : ∀ e ∈ table, sum / 2 ^ 1000 ≤ e.2 ∧ e.2 ≤ 2 ^ 1000 * sum) :
    (computeJSD Real.log table sum table sum).JSD_value = val 0 := by
  have hpos := counts_pos_of_range table sum hs hrange
  rw [computeJSD_value _ _ _ _ _ h h (quotients_pos _ _ hpos hs)
    (quotients_pos _ _ hpos hs) log_two_pos.ne']
  congr 1
  apply List.sum_eq_zero
  intro y hy
  obtain ⟨k, _, rfl⟩ := List.mem_map.1 hy
  exact jsTerm_self _

/-- Witness of C3 (amended) on the table `x:2, y:2` with total 4. -/
theorem computeJSD_self_witness :
    (computeJSD Real.log [("x", 2), ("y", 2)] 4 [("x", 2), ("y", 2)] 4).JSD_value = val 0 :=
  computeJSD_self [("x", 2), ("y", 2)] 4 (by decide) (by norm_num) (by
    simp
    norm_num)

/-- Over exact real arithmetic, for two tables with all counts strictly positive and each total
equal to the sum of its counts, `JSD_value` is 0 if and only if the two normalised maps have
the same keys and store the same probability under every key.  The "only if" half rests on the
strict convexity of `x log x` and does not carry over to rounded operations. -/
theorem computeJSD_eq_zero_iff (table1 : Table ℝ) (sum1 : ℝ) (table2 : Table ℝ) (sum2 : ℝ)
    (h1 : table1.keys.Nodup) (h2 : table2.keys.Nodup)
    (hpos1 : ∀ e ∈ table1, 0 < e.2) (hsum1 : tableSum table1 = sum1)
    (hpos2 : ∀ e ∈ table2, 0 < e.2) (hsum2 : tableSum table2 = sum2) :
    (computeJSD Real.log table1 sum1 table2 sum2).JSD_value = val 0
      ↔ ∀ k, (normalize table1 sum1).find k = (normalize table2 sum2).find k := by
  have hq1 := quotients_pos_of_sum table1 sum1 hpos1 hsum1
  have hq2 := quotients_pos_of_sum table2 sum2 hpos2 hsum2
  rw [computeJSD_value _ _ _ _ _ h1 h2 hq1 hq2 log_two_pos.ne']
  have hv : (val (jsSum Real.log table1 sum1 table2 sum2) = val (0 : ℝ))
      ↔ jsSum Real.log table1 sum1 table2 sum2 = 0 :=
    ⟨fun h => double.val.inj h, fun h => by rw [h]⟩
  rw [hv, jsSum_eq_zero_iff _ _ _ _ hq1 hq2]
  exact forall_congr' fun k => (find_normalize_eq_iff _ _ _ _ hq1 hq2 k).symm

end Divergence

/-! ## Characters -/

section Chars

theorem isdigit_not_space {c : Char} (h : isspace c = true) : isdigit c = false := by
  simp only [isspace, Bool.or_eq_true, decide_eq_true_eq] at h
  rcases h with ((((rfl | rfl) | rfl) | rfl) | h) | h
  · decide
  · decide
  · decide
  · decide
  · simp [isdigit, h]
  · simp [isdigit, h]

theorem ne_of_space {c : Char} (h : isspace c = true) :
    c ≠ '-' ∧ c ≠ '+' ∧ c ≠ '.' ∧ c ≠ 'e' ∧ c ≠ 'E' := by
  refine ⟨?_, ?_, ?_, ?_, ?_⟩ <;>
  · rintro rfl
    revert h
    decide

theorem ne_of_digit {c : Char} (h : isdigit c = true) :
    c ≠ '-' ∧ c ≠ '+' ∧ c ≠ '.' ∧ c ≠ 'e' ∧ c ≠ 'E' := by
  refine ⟨?_, ?_, ?_, ?_, ?_⟩ <;>
  · rintro rfl
    revert h
    decide

theorem numStep_space (s : NumState) {c : Char} (h : isspace c = true) :
    numStep s c = .stop s.accepting := by
  obtain ⟨h1, h2, h3, h4, h5⟩ := ne_of_space h
  have hd := isdigit_not_space h
  cases s <;> simp [numStep, NumState.accepting, h1, h2, h3, h4, h5, hd]

end Chars

section Conversion

theorem roundHalfEven_intCast (z : ℤ) : roundHalfEven (z : ℚ) = z := by
  simp [roundHalfEven]

theorem roundHalfEven_sub_le (q : ℚ) : |(roundHalfEven q : ℚ) - q| ≤ 1 / 2 := by
  unfold roundHalfEven
  have h1 := Int.floor_le q
  have h2 := Int.lt_floor_add_one q
  split_ifs with h3 h4 h5
  · rw [abs_le]; constructor <;> linarith
  · push_cast; rw [abs_le]; constructor <;> linarith
  · rw [abs_le]; constructor <;> linarith
  · push_cast; rw [abs_le]; constructor <;> linarith

theorem abs_roundHalfEven_le (q : ℚ) : |(roundHalfEven q : ℚ)| ≤ |q| + 1 / 2 := by
  have h := roundHalfEven_sub_le q
  have h2 := abs_sub_abs_le_abs_sub (roundHalfEven q : ℚ) q
  linarith

theorem le_abs_roundHalfEven (q : ℚ) : |q| - 1 / 2 ≤ |(roundHalfEven q : ℚ)| := by
  have h := roundHalfEven_sub_le q
  have h2 := abs_sub_abs_le_abs_sub q (roundHalfEven q : ℚ)
  rw [abs_sub_comm] at h2
  linarith

/-- The exponent of the last bit is such that the scaled number is below `2 ^ 53`. -/
theorem abs_lt_zpow_exponent (q : ℚ) :
    |q| < 2 ^ (max (Int.log 2 |q| - 52) (-1074) + 53) := by
  have h := Int.lt_zpow_succ_log_self (b := 2) (by norm_num) |q|
  have hle : Int.log 2 |q| + 1 ≤ max (Int.log 2 |q| - 52) (-1074) + 53 := by
    have := le_max_left (Int.log 2 |q| - 52) (-1074)
    linarith
  calc |q| < ((2 : ℕ) : ℚ) ^ (Int.log 2 |q| + 1) := h
    _ = (2 : ℚ) ^ (Int.log 2 |q| + 1) := by norm_num
    _ ≤ 2 ^ (max (Int.log 2 |q| - 52) (-1074) + 53) :=
      zpow_le_zpow_right₀ (by norm_num) hle

theorem toDouble_zero : toDouble 0 = some 0 := by
  simp [toDouble, roundHalfEven]

theorem toDouble_of_representable (m e : ℤ) (hm : |m| < 2 ^ 53) (h1 : -1074 ≤ e)
    (h2 : e ≤ 971) : toDouble (m * 2 ^ e) = some ((m : ℚ) * 2 ^ e) := by
  by_cases h0 : m = 0
  · subst h0
    simpa using toDouble_zero
  have hpos : (0 : ℚ) < |(m : ℚ) * 2 ^ e| := by
    rw [abs_pos]
    exact mul_ne_zero (by exact_mod_cast h0) (zpow_ne_zero _ (by norm_num))
  have hlt : |(m : ℚ) * 2 ^ e| < 2 ^ (53 + e) := by
    rw [abs_mul, abs_of_pos (zpow_pos (by norm_num : (0 : ℚ) < 2) e), zpow_add₀ (by norm_num)]
    have hm' : |(m : ℚ)| < 2 ^ 53 := by
      rw [← Int.cast_abs]
      exact_mod_cast hm
    have := zpow_pos (by norm_num : (0 : ℚ) < 2) e
    have h53 : (2 : ℚ) ^ (53 : ℤ) = 2 ^ 53 := by norm_cast
    rw [h53]
    exact mul_lt_mul_of_pos_right hm' this
  have hlog : Int.log 2 |(m : ℚ) * 2 ^ e| < 53 + e := by
    rw [← Int.lt_zpow_iff_log_lt (by norm_num) hpos]
    simpa using hlt
  have hk : max (Int.log 2 |(m : ℚ) * 2 ^ e| - 52) (-1074) ≤ e := by
    apply max_le
    · linarith
    · exact h1
  unfold toDouble
  simp only
  generalize max (Int.log 2 |(m : ℚ) * 2 ^ e| - 52) (-1074) = k at hk
  obtain ⟨n, hn⟩ := Int.eq_ofNat_of_zero_le (sub_nonneg.2 hk)
  have he : e = k + n := by linarith
  have hq : (m : ℚ) * 2 ^ e / 2 ^ k = ((m * 2 ^ n : ℤ) : ℚ) := by
    rw [he, zpow_add₀ (by norm_num)]
    have : (2 : ℚ) ^ k ≠ 0 := zpow_ne_zero _ (by norm_num)
    field_simp
    ring
  rw [hq, roundHalfEven_intCast]
  have hr : ((m * 2 ^ n : ℤ) : ℚ) * 2 ^ k = (m : ℚ) * 2 ^ e := by
    rw [he, zpow_add₀ (by norm_num)]
    push_cast
    rw [zpow_natCast]
    ring
  rw [hr]
  have hfin : ¬ (2 : ℚ) ^ 1024 ≤ |(m : ℚ) * 2 ^ e| := by
    rw [not_le]
    refine lt_of_lt_of_le hlt ?_
    have h1024 : (2 : ℚ) ^ (1024 : ℤ) = 2 ^ 1024 := zpow_natCast 2 1024
    rw [← h1024]
    exact zpow_le_zpow_right₀ (by norm_num) (by linarith)
  rw [if_neg hfin]

theorem toDouble_intCast (n : ℤ) (h : |n| < 2 ^ 53) : toDouble n = some (n : ℚ) := by
  simpa using toDouble_of_representable n 0 h (by norm_num) (by norm_num)

theorem roundHalfEven_add_half (n : ℤ) :
    roundHalfEven ((n : ℚ) + 1 / 2) = if n % 2 = 0 then n else n + 1 := by
  have hf : ⌊(n : ℚ) + 1 / 2⌋ = n := by
    rw [Int.floor_eq_iff]
    constructor <;> linarith
  unfold roundHalfEven
  rw [hf]
  have h1 : ¬ ((n : ℚ) + 1 / 2 - n < 1 / 2) := by
    intro h
    linarith
  have h2 : ¬ ((1 : ℚ) / 2 < (n : ℚ) + 1 / 2 - n) := by
    intro h
    linarith
  rw [if_neg h1, if_neg h2]

theorem overflowBound_eq : overflowBound = (2 ^ 53 - 1 / 2) * 2 ^ (971 : ℤ) := by
  have h1 : (2 : ℚ) ^ 1024 = 2 ^ 53 * 2 ^ 971 := by rw [← pow_add]
  have h2 : (2 : ℚ) ^ 971 = 2 * 2 ^ 970 := by rw [← pow_succ']
  have h3 : (2 : ℚ) ^ (971 : ℤ) = 2 ^ 971 := zpow_natCast 2 971
  rw [overflowBound, h3, h1, h2]
  ring

theorem zpow_1024 : (2 : ℚ) ^ 1024 = 2 ^ 53 * 2 ^ (971 : ℤ) := by
  have h3 : (2 : ℚ) ^ (971 : ℤ) = 2 ^ 971 := zpow_natCast 2 971
  rw [h3, ← pow_add]

theorem int_abs_le_of_lt (z : ℤ) (b : ℤ) (h : |(z : ℚ)| < (b : ℚ) + 1) : |(z : ℚ)| ≤ b := by
  rw [← Int.cast_abs] at h ⊢
  have : |z| < b + 1 := by exact_mod_cast h
  exact_mod_cast Int.lt_add_one_iff.1 this

theorem int_le_abs_of_lt (z : ℤ) (b : ℤ) (h : (b : ℚ) - 1 < |(z : ℚ)|) : (b : ℚ) ≤ |(z : ℚ)| := by
  rw [← Int.cast_abs] at h ⊢
  have : b - 1 < |z| := by exact_mod_cast h
  exact_mod_cast Int.sub_one_lt_iff.1 this

/-- The conversion overflows exactly from the midpoint between the largest finite `double` and
`2 ^ 1024` on. -/
theorem toDouble_eq_none_iff (q : ℚ) : toDouble q = none ↔ overflowBound ≤ |q| := by
  have hT : ∀ k : ℤ, (0 : ℚ) < 2 ^ k := fun k => zpow_pos (by norm_num) k
  have hexp := abs_lt_zpow_exponent q
  unfold toDouble
  simp only
  generalize hk : max (Int.log 2 |q| - 52) (-1074) = k at hexp
  have hy : |q / 2 ^ k| < 2 ^ 53 := by
    rw [abs_div, abs_of_pos (hT k), div_lt_iff₀ (hT k)]
    rw [zpow_add₀ (by norm_num)] at hexp
    have h53 : (2 : ℚ) ^ (53 : ℤ) = 2 ^ 53 := zpow_natCast 2 53
    rw [h53] at hexp
    linarith
  have hr : |(roundHalfEven (q / 2 ^ k) : ℚ) * 2 ^ k|
      = |(roundHalfEven (q / 2 ^ k) : ℚ)| * 2 ^ k := by
    rw [abs_mul, abs_of_pos (hT k)]
  rw [hr]
  generalize hz : roundHalfEven (q / 2 ^ k) = z
  have hz1 := abs_roundHalfEven_le (q / 2 ^ k)
  have hz2 := le_abs_roundHalfEven (q / 2 ^ k)
  rw [hz] at hz1 hz2
  constructor
  · intro h
    by_contra hq
    rw [not_le] at hq
    have hfin : ¬ (2 : ℚ) ^ 1024 ≤ |(z : ℚ)| * 2 ^ k := by
      rw [not_le]
      have hklog : Int.log 2 |q| < 1024 := by
        by_cases h0 : 0 < |q|
        · rw [← Int.lt_zpow_iff_log_lt (by norm_num) h0]
          have h1024 : ((2 : ℕ) : ℚ) ^ (1024 : ℤ) = 2 ^ 1024 := zpow_natCast 2 1024
          rw [h1024]
          have : overflowBound < 2 ^ 1024 := by
            unfold overflowBound
            have := pow_pos (by norm_num : (0 : ℚ) < 2) 970
            linarith
          linarith
        · have h00 : |q| ≤ 0 := not_lt.1 h0
          rw [Int.log_of_right_le_zero _ h00]
          norm_num
      have hk971 : k ≤ 971 := by
        rw [← hk]
        apply max_le
        · linarith
        · norm_num
      rcases (lt_or_eq_of_le hk971) with hlt | heq
      · have hz3 : |(z : ℚ)| ≤ ((2 ^ 53 : ℤ) : ℚ) := by
          apply int_abs_le_of_lt
          push_cast
          linarith
        push_cast at hz3
        have hk970 : (2 : ℚ) ^ k ≤ 2 ^ (970 : ℤ) :=
          zpow_le_zpow_right₀ (by norm_num) (by linarith)
        have h971 : (2 : ℚ) ^ (971 : ℤ) = 2 * 2 ^ (970 : ℤ) := by
          rw [show (971 : ℤ) = 1 + 970 by norm_num, zpow_add₀ (by norm_num)]
          norm_num
        rw [zpow_1024, h971]
        have h970 := hT 970
        calc |(z : ℚ)| * 2 ^ k ≤ 2 ^ 53 * 2 ^ (970 : ℤ) :=
              mul_le_mul hz3 hk970 (hT k).le (by norm_num)
          _ < 2 ^ 53 * (2 * 2 ^ (970 : ℤ)) := by linarith
      · subst heq
        rw [overflowBound_eq] at hq
        have hy2 : |q / 2 ^ (971 : ℤ)| < 2 ^ 53 - 1 / 2 := by
          rw [abs_div, abs_of_pos (hT 971), div_lt_iff₀ (hT 971)]
          exact hq
        have hz3 : |(z : ℚ)| ≤ ((2 ^ 53 - 1 : ℤ) : ℚ) := by
          apply int_abs_le_of_lt
          push_cast
          linarith
        push_cast at hz3
        rw [zpow_1024]
        have := hT 971
        nlinarith
    rw [if_neg hfin] at h
    cases h
  · intro hq
    have hfin : (2 : ℚ) ^ 1024 ≤ |(z : ℚ)| * 2 ^ k := by
      have hB : (2 : ℚ) ^ (1023 : ℤ) ≤ overflowBound := by
        have h1 : (2 : ℚ) ^ (1023 : ℤ) = 2 ^ 52 * 2 ^ (971 : ℤ) := by
          rw [show (1023 : ℤ) = 52 + 971 by norm_num, zpow_add₀ (by norm_num)]
          norm_num
        rw [h1, overflowBound_eq]
        have := hT 971
        nlinarith
      have h0 : 0 < |q| := lt_of_lt_of_le (hT 1023) (le_trans hB hq)
      have hlog : 1023 ≤ Int.log 2 |q| := by
        rw [← Int.zpow_le_iff_le_log (by norm_num) h0]
        have : ((2 : ℕ) : ℚ) = 2 := by norm_num
        rw [this]
        exact le_trans hB hq
      have hkeq : k = Int.log 2 |q| - 52 := by
        rw [← hk]
        apply max_eq_left
        linarith
      have hlow : (2 : ℚ) ^ (k + 52) ≤ |q| := by
        have := Int.zpow_log_le_self (b := 2) (by norm_num) h0
        have h2 : ((2 : ℕ) : ℚ) = 2 := by norm_num
        rw [h2] at this
        rw [hkeq]
        simpa using this
      have hy52 : 2 ^ 52 ≤ |q / 2 ^ k| := by
        rw [abs_div, abs_of_pos (hT k), le_div_iff₀ (hT k)]
        rw [zpow_add₀ (by norm_num)] at hlow
        have h52 : (2 : ℚ) ^ (52 : ℤ) = 2 ^ 52 := zpow_natCast 2 52
        rw [h52] at hlow
        linarith
      have hk971 : 971 ≤ k := by linarith
      rcases (lt_or_eq_of_le hk971) with hlt | heq
      · have hz3 : ((2 ^ 52 : ℤ) : ℚ) ≤ |(z : ℚ)| := by
          apply int_le_abs_of_lt
          push_cast
          linarith
        push_cast at hz3
        have hk972 : (2 : ℚ) ^ (972 : ℤ) ≤ 2 ^ k :=
          zpow_le_zpow_right₀ (by norm_num) (by linarith)
        have h972 : (2 : ℚ) ^ (972 : ℤ) = 2 * 2 ^ (971 : ℤ) := by
          rw [show (972 : ℤ) = 1 + 971 by norm_num, zpow_add₀ (by norm_num)]
          norm_num
        rw [zpow_1024]
        have h971 := hT 971
        calc (2 : ℚ) ^ 53 * 2 ^ (971 : ℤ) = 2 ^ 52 * (2 * 2 ^ (971 : ℤ)) := by ring
          _ ≤ |(z : ℚ)| * 2 ^ k := by
            rw [← h972]
            exact mul_le_mul hz3 hk972 (hT 972).le (abs_nonneg _)
      · subst heq
        rw [overflowBound_eq] at hq
        have hy2 : 2 ^ 53 - 1 / 2 ≤ |q / 2 ^ (971 : ℤ)| := by
          rw [abs_div, abs_of_pos (hT 971), le_div_iff₀ (hT 971)]
          exact hq
        have hz3 : (2 : ℚ) ^ 53 ≤ |(z : ℚ)| := by
          rcases lt_or_eq_of_le hy2 with hgt | heq2
          · have : ((2 ^ 53 : ℤ) : ℚ) ≤ |(z : ℚ)| := by
              apply int_le_abs_of_lt
              push_cast
              linarith
            exact_mod_cast this
          · rcases abs_choice (q / 2 ^ (971 : ℤ)) with habs | habs
            · rw [habs] at heq2
              have hy3 : q / 2 ^ (971 : ℤ) = ((2 ^ 53 - 1 : ℤ) : ℚ) + 1 / 2 := by
                push_cast
                linarith
              rw [hy3, roundHalfEven_add_half] at hz
              norm_num at hz
              rw [← hz]
              norm_num
            · rw [habs] at heq2
              have hy3 : q / 2 ^ (971 : ℤ) = ((-2 ^ 53 : ℤ) : ℚ) + 1 / 2 := by
                push_cast
                linarith
              rw [hy3, roundHalfEven_add_half] at hz
              norm_num at hz
              rw [← hz]
              norm_num
        rw [zpow_1024]
        exact mul_le_mul_of_nonneg_right hz3 (hT 971).le
    rw [if_pos hfin]

/-- A number of magnitude at most half the least positive `double` converts to 0. -/
theorem toDouble_underflow (q : ℚ) (h : |q| ≤ 2 ^ (-1075 : ℤ)) : toDouble q = some 0 := by
  have hT : ∀ k : ℤ, (0 : ℚ) < 2 ^ k := fun k => zpow_pos (by norm_num) k
  unfold toDouble
  simp only
  generalize hk : max (Int.log 2 |q| - 52) (-1074) = k
  have hk1 : -1074 ≤ k := by
    rw [← hk]
    exact le_max_right _ _
  have hy : |q / 2 ^ k| ≤ 1 / 2 := by
    rw [abs_div, abs_of_pos (hT k), div_le_iff₀ (hT k)]
    have h1 : (2 : ℚ) ^ (-1074 : ℤ) ≤ 2 ^ k := zpow_le_zpow_right₀ (by norm_num) hk1
    have h2 : (2 : ℚ) ^ (-1074 : ℤ) = 2 * 2 ^ (-1075 : ℤ) := by
      rw [show (-1074 : ℤ) = 1 + -1075 by norm_num, zpow_add₀ (by norm_num)]
      norm_num
    linarith
  have hz : roundHalfEven (q / 2 ^ k) = 0 := by
    generalize q / 2 ^ k = y at hy
    rw [abs_le] at hy
    unfold roundHalfEven
    by_cases h0 : 0 ≤ y
    · have hf : ⌊y⌋ = 0 := by
        rw [Int.floor_eq_iff]
        constructor
        · simpa using h0
        · norm_num
          linarith
      rw [hf]
      have h2 : ¬ ((1 : ℚ) / 2 < y - ((0 : ℤ) : ℚ)) := by
        push_cast
        linarith
      simp [h2]
      intro _
      linarith [hy.2]
    · have hf : ⌊y⌋ = -1 := by
        rw [Int.floor_eq_iff]
        constructor
        · push_cast
          linarith
        · push_cast
          linarith
      rw [hf]
      have h1 : ¬ (y - ((-1 : ℤ) : ℚ) < 1 / 2) := by
        push_cast
        linarith
      simp [h1]
      linarith [hy.1]
  rw [hz]
  simp

theorem toDouble_one : toDouble 1 = some 1 := by
  simpa using toDouble_intCast 1 (by norm_num)

theorem toDouble_two : toDouble 2 = some 2 := by
  simpa using toDouble_intCast 2 (by norm_num)

theorem toDouble_neg_one : toDouble (-1) = some (-1) := by
  simpa using toDouble_intCast (-1) (by norm_num)

end Conversion

section Lines

theorem beginsNumber_append (s : NumState) (x r : List Char) (hr : endsToken r) :
    beginsNumber s (x ++ r) = beginsNumber s x := by
  induction x generalizing s with
  | nil =>
    rcases hr with rfl | ⟨c, r', rfl, hc⟩
    · rfl
    · simp [beginsNumber, numStep_space s hc]
  | cons c x ih =>
    simp only [List.cons_append, beginsNumber]
    cases numStep s c with
    | goto s' => exact ih s'
    | stop b => rfl

theorem beginsNumber_expDigits (l : List Char) : beginsNumber .expDigits l = true := by
  induction l with
  | nil => rfl
  | cons c l ih =>
    by_cases hd : isdigit c = true
    · simp [beginsNumber, numStep, hd, ih]
    · simp [beginsNumber, numStep, hd]

theorem beginsNumber_expSign (l : List Char) :
    beginsNumber .expSign l = !(l.takeWhile isdigit).isEmpty := by
  cases l with
  | nil => rfl
  | cons c l =>
    by_cases hd : isdigit c = true
    · simp [beginsNumber, numStep, hd, beginsNumber_expDigits, List.takeWhile_cons]
    · simp [beginsNumber, numStep, hd, List.takeWhile_cons]

theorem beginsNumber_expMark (l : List Char) :
    beginsNumber .expMark l = !((extractSign l).2.takeWhile isdigit).isEmpty := by
  cases l with
  | nil => rfl
  | cons c l =>
    by_cases hm : c = '-'
    · simp [beginsNumber, numStep, hm, extractSign, beginsNumber_expSign]
    · by_cases hp : c = '+'
      · simp [beginsNumber, numStep, hp, extractSign, beginsNumber_expSign]
      · by_cases hd : isdigit c = true
        · simp [beginsNumber, numStep, hm, hp, hd, extractSign, beginsNumber_expDigits,
            List.takeWhile_cons]
        · simp [beginsNumber, numStep, hm, hp, hd, extractSign, List.takeWhile_cons]

theorem beginsNumber_fracDigits (l : List Char) :
    beginsNumber .fracDigits l = afterMantissa (l.dropWhile isdigit) := by
  induction l with
  | nil => rfl
  | cons c l ih =>
    by_cases hd : isdigit c = true
    · simp [beginsNumber, numStep, hd, ih, List.dropWhile_cons]
    · by_cases he : c = 'e' ∨ c = 'E'
      · have he' : (decide (c = 'e') || decide (c = 'E')) = true := by simpa using he
        simp [beginsNumber, numStep, hd, he', List.dropWhile_cons, afterMantissa,
          beginsNumber_expMark]
      · have he' : (decide (c = 'e') || decide (c = 'E')) = false := by simpa using he
        simp [beginsNumber, numStep, hd, he', List.dropWhile_cons, afterMantissa]

theorem beginsNumber_intDigits (l : List Char) :
    beginsNumber .intDigits l = afterMantissa (extractFraction (l.dropWhile isdigit)).2 := by
  induction l with
  | nil => rfl
  | cons c l ih =>
    by_cases hd : isdigit c = true
    · simp [beginsNumber, numStep, hd, ih, List.dropWhile_cons]
    · by_cases hp : c = '.'
      · subst hp
        simp [beginsNumber, numStep, hd, List.dropWhile_cons, extractFraction,
          beginsNumber_fracDigits]
      · by_cases he : c = 'e' ∨ c = 'E'
        · have he' : (decide (c = 'e') || decide (c = 'E')) = true := by simpa using he
          simp [beginsNumber, numStep, hd, hp, he', List.dropWhile_cons, extractFraction,
            afterMantissa, beginsNumber_expMark]
        · have he' : (decide (c = 'e') || decide (c = 'E')) = false := by simpa using he
          simp [beginsNumber, numStep, hd, hp, he', List.dropWhile_cons, extractFraction,
            afterMantissa]

theorem beginsNumber_signSeen (l : List Char) :
    beginsNumber .signSeen l = mantissaAccepted l := by
  cases l with
  | nil => rfl
  | cons c l =>
    by_cases hd : isdigit c = true
    · simp [beginsNumber, numStep, hd, mantissaAccepted, List.takeWhile_cons,
        List.dropWhile_cons, beginsNumber_intDigits]
    · by_cases hp : c = '.'
      · subst hp
        cases l with
        | nil => simp [beginsNumber, numStep, hd, mantissaAccepted, extractFraction,
            NumState.accepting]
        | cons d l =>
          by_cases hd2 : isdigit d = true
          · simp [beginsNumber, numStep, hd, hd2, mantissaAccepted, List.takeWhile_cons,
              List.dropWhile_cons, extractFraction, beginsNumber_fracDigits]
          · simp [beginsNumber, numStep, hd, hd2, mantissaAccepted, List.takeWhile_cons,
              List.dropWhile_cons, extractFraction]
      · simp [beginsNumber, numStep, hd, hp, mantissaAccepted, List.takeWhile_cons,
          List.dropWhile_cons, extractFraction]

theorem beginsNumber_start (l : List Char) :
    beginsNumber .start l = mantissaAccepted (extractSign l).2 := by
  rw [← beginsNumber_signSeen]
  cases l with
  | nil => rfl
  | cons c l =>
    by_cases hm : c = '-'
    · simp [beginsNumber, numStep, hm, extractSign]
    · by_cases hp : c = '+'
      · simp [beginsNumber, numStep, hp, extractSign]
      · simp [beginsNumber, numStep, hm, hp, extractSign]

theorem scanNumber_isSome (l : List Char) :
    (scanNumber l).isSome = beginsNumber .start l := by
  rw [beginsNumber_start]
  unfold scanNumber mantissaAccepted
  simp only
  cases h1 : ((extractSign l).2.takeWhile isdigit).isEmpty
      && (extractFraction ((extractSign l).2.dropWhile isdigit)).1.isEmpty with
  | true => simp
  | false =>
    simp only [Bool.false_eq_true, if_false, Bool.not_false, Bool.true_and]
    cases h2 : (extractFraction ((extractSign l).2.dropWhile isdigit)).2 with
    | nil => rfl
    | cons e r =>
      simp only [afterMantissa]
      by_cases he : (decide (e = 'e') || decide (e = 'E')) = true
      · simp only [he, if_true]
        cases h3 : ((extractSign r).2.takeWhile isdigit).isEmpty with
        | true => simp
        | false => simp
      · simp [he]

end Lines

section Tokens

theorem dropWhile_space_head (l : List Char) :
    l.dropWhile isspace = [] ∨ ∃ c r, l.dropWhile isspace = c :: r ∧ isspace c = false := by
  induction l with
  | nil => exact Or.inl rfl
  | cons c l ih =>
    by_cases hc : isspace c = true
    · simpa [List.dropWhile_cons, hc] using ih
    · exact Or.inr ⟨c, l, by simp [List.dropWhile_cons, hc], by simpa using hc⟩

theorem dropWhile_nonspace_endsToken (l : List Char) :
    endsToken (l.dropWhile fun c => !isspace c) := by
  induction l with
  | nil => exact Or.inl rfl
  | cons c l ih =>
    by_cases hc : isspace c = true
    · exact Or.inr ⟨c, l, by simp [List.dropWhile_cons, hc], hc⟩
    · simpa [List.dropWhile_cons, hc] using ih

theorem tokens_eq (l : List Char) :
    tokens l =
      if ((l.dropWhile isspace).takeWhile fun c => !isspace c).isEmpty then []
      else ((l.dropWhile isspace).takeWhile fun c => !isspace c)
        :: tokens ((l.dropWhile isspace).dropWhile fun c => !isspace c) := by
  induction l with
  | nil => rfl
  | cons c cs ih =>
    by_cases hc : isspace c = true
    · simp only [tokens, hc, if_true, List.dropWhile_cons]
      exact ih
    · have hc' : isspace c = false := by simpa using hc
      cases cs with
      | nil => simp [tokens, hc', List.dropWhile_cons, List.takeWhile_cons]
      | cons d ds =>
        by_cases hd : isspace d = true
        · simp [tokens, hc', hd, List.dropWhile_cons, List.takeWhile_cons]
        · have hd' : isspace d = false := by simpa using hd
          have ih' := ih
          simp only [List.dropWhile_cons, hd', Bool.false_eq_true, if_false, List.takeWhile_cons,
            Bool.not_false, if_true, List.isEmpty_cons] at ih'
          simp only [tokens, hc', hd', Bool.false_eq_true, if_false, List.dropWhile_cons,
            List.takeWhile_cons, Bool.not_false, if_true, List.isEmpty_cons]
          simp only [tokens, hd', Bool.false_eq_true, if_false] at ih'
          rw [ih']

variable {α : Type} [LinearOrderedField α]

theorem getlines_append_newline (l rest : List Char) (hl : '\n' ∉ l) :
    getlines (l ++ '\n' :: rest) = l :: getlines rest := by
  induction l with
  | nil => simp [getlines]
  | cons c l ih =>
    simp only [List.mem_cons, not_or] at hl
    have hc : ¬ c = '\n' := fun h => hl.1 h.symm
    have ih' : getlines (l.append ('\n' :: rest)) = l :: getlines rest := ih hl.2
    simp only [List.cons_append, getlines, hc, if_false]
    rw [ih']

theorem getlines_unlines (ls : List (List Char)) (h : ∀ l ∈ ls, '\n' ∉ l) :
    getlines (unlines ls) = ls := by
  induction ls with
  | nil => rfl
  | cons l ls ih =>
    simp only [unlines]
    rw [getlines_append_newline l _ (h l (List.mem_cons_self _ _)),
      ih fun l' hl' => h l' (List.mem_cons_of_mem _ hl')]

theorem getlines_no_newline (text : List Char) : ∀ l ∈ getlines text, '\n' ∉ l := by
  induction text with
  | nil => simp [getlines]
  | cons c cs ih =>
    intro l hl
    by_cases hc : c = '\n'
    · simp only [getlines, hc, if_true, List.mem_cons] at hl
      rcases hl with rfl | hl
      · simp
      · exact ih l hl
    · simp only [getlines, hc, if_false] at hl
      cases hg : getlines cs with
      | nil =>
        rw [hg] at hl
        simp only [List.mem_singleton] at hl
        rw [hl]
        simpa using fun h => hc h.symm
      | cons l0 ls =>
        rw [hg] at hl ih
        simp only [List.mem_cons] at hl
        rcases hl with rfl | hl
        · have := ih l0 (List.mem_cons_self _ _)
          simp only [List.mem_cons, not_or]
          exact ⟨fun h => hc h.symm, this⟩
        · exact ih l (List.mem_cons_of_mem _ hl)

end Tokens

section Locality

theorem takeWhile_digit_append (y r : List Char) (hr : endsToken r) :
    (y ++ r).takeWhile isdigit = y.takeWhile isdigit := by
  induction y with
  | nil =>
    rcases hr with rfl | ⟨c, r', rfl, hc⟩
    · rfl
    · simp [List.takeWhile_cons, isdigit_not_space hc]
  | cons c y ih =>
    by_cases hd : isdigit c = true
    · simp [List.takeWhile_cons, hd, ih]
    · simp [List.takeWhile_cons, hd]

theorem dropWhile_digit_append (y r : List Char) (hr : endsToken r) :
    (y ++ r).dropWhile isdigit = y.dropWhile isdigit ++ r := by
  induction y with
  | nil =>
    rcases hr with rfl | ⟨c, r', rfl, hc⟩
    · rfl
    · simp [List.dropWhile_cons, isdigit_not_space hc]
  | cons c y ih =>
    by_cases hd : isdigit c = true
    · simp [List.dropWhile_cons, hd, ih]
    · simp [List.dropWhile_cons, hd]

theorem extractSign_append (y r : List Char) (hr : endsToken r) :
    extractSign (y ++ r) = ((extractSign y).1, (extractSign y).2 ++ r) := by
  cases y with
  | nil =>
    rcases hr with rfl | ⟨c, r', rfl, hc⟩
    · rfl
    · obtain ⟨h1, h2, _⟩ := ne_of_space hc
      simp [extractSign, h1, h2]
  | cons c y =>
    by_cases hm : c = '-'
    · simp [extractSign, hm]
    · by_cases hp : c = '+'
      · simp [extractSign, hp]
      · simp [extractSign, hm, hp]

theorem extractFraction_append (y r : List Char) (hr : endsToken r) :
    extractFraction (y ++ r) = ((extractFraction y).1, (extractFraction y).2 ++ r) := by
  cases y with
  | nil =>
    rcases hr with rfl | ⟨c, r', rfl, hc⟩
    · rfl
    · obtain ⟨_, _, h3, _⟩ := ne_of_space hc
      simp [extractFraction, h3]
  | cons c y =>
    by_cases hp : c = '.'
    · simp [extractFraction, hp, takeWhile_digit_append y r hr, dropWhile_digit_append y r hr]
    · simp [extractFraction, hp]

theorem scanNumber_append (x r : List Char) (hr : endsToken r) :
    scanNumber (x ++ r) = (scanNumber x).map fun p => (p.1, p.2 ++ r) := by
  unfold scanNumber
  simp only [extractSign_append x r hr, takeWhile_digit_append _ r hr,
    dropWhile_digit_append _ r hr, extractFraction_append _ r hr]
  cases h1 : ((extractSign x).2.takeWhile isdigit).isEmpty
      && (extractFraction ((extractSign x).2.dropWhile isdigit)).1.isEmpty with
  | true => simp
  | false =>
    simp only [Bool.false_eq_true, if_false]
    cases h2 : (extractFraction ((extractSign x).2.dropWhile isdigit)).2 with
    | nil =>
      rcases hr with rfl | ⟨c, r', rfl, hc⟩
      · simp
      · obtain ⟨_, _, _, h4, h5⟩ := ne_of_space hc
        simp [h4, h5]
    | cons e r2 =>
      by_cases he : (decide (e = 'e') || decide (e = 'E')) = true
      · simp only [List.cons_append, he, if_true, extractSign_append r2 r hr,
          takeWhile_digit_append _ r hr, dropWhile_digit_append _ r hr]
        cases h3 : ((extractSign r2).2.takeWhile isdigit).isEmpty with
        | true => simp
        | false => simp
      · simp [he]

variable {α : Type} [LinearOrderedField α]

theorem extractNumber_append (x r : List Char) (hr : endsToken r) :
    extractNumber (α := α) (x ++ r) = (extractNumber x).map fun p => (p.1, p.2 ++ r) := by
  unfold extractNumber
  rw [scanNumber_append x r hr]
  cases scanNumber x with
  | none => rfl
  | some p =>
    obtain ⟨v, rest⟩ := p
    simp only [Option.map_some']
    cases toDouble v <;> rfl

theorem extractNumber_isSome_imp (l : List Char)
    (h : (extractNumber (α := α) l).isSome = true) : beginsNumber .start l = true := by
  rw [← scanNumber_isSome]
  unfold extractNumber at h
  cases hs : scanNumber l with
  | none => simp [hs] at h
  | some p => rfl

theorem extractRecord_tokens (line : List Char) :
    extractRecord (α := α) line
      = match tokens line with
        | t1 :: t2 :: _ => (extractNumber (α := α) t2).map fun p => (String.mk t1, p.1)
        | _ => none := by
  unfold extractRecord extractString
  rw [tokens_eq line]
  simp only
  cases h1 : ((line.dropWhile isspace).takeWhile fun c => !isspace c).isEmpty with
  | true => simp
  | false =>
    simp only [Bool.false_eq_true, if_false]
    rw [tokens_eq]
    unfold extractDouble
    generalize (line.dropWhile isspace).dropWhile (fun c => !isspace c) = rest
    cases h2 : ((rest.dropWhile isspace).takeWhile fun c => !isspace c).isEmpty with
    | true =>
      simp only [if_true]
      rcases dropWhile_space_head rest with h | ⟨c, r, h, hc⟩
      · rw [h]
        rfl
      · rw [h] at h2
        simp [List.takeWhile_cons, hc] at h2
    | false =>
      simp only [Bool.false_eq_true, if_false]
      have happ := extractNumber_append (α := α)
        ((rest.dropWhile isspace).takeWhile fun c => !isspace c)
        ((rest.dropWhile isspace).dropWhile fun c => !isspace c)
        (dropWhile_nonspace_endsToken _)
      rw [List.takeWhile_append_dropWhile] at happ
      rw [happ]
      cases extractNumber (α := α) ((rest.dropWhile isspace).takeWhile fun c => !isspace c) with
      | none => rfl
      | some p => rfl

end Locality

section Skipped

variable {α : Type} [LinearOrderedField α]

theorem lineAccepted_eq_countText (line : List Char) :
    lineAccepted line = (countText line).isSome := by
  unfold lineAccepted countText
  split
  · rw [← scanNumber_isSome]
    simp
  · rfl

theorem extractRecord_countText (line : List Char) :
    extractRecord (α := α) line
      = match tokens line with
        | t1 :: _ :: _ =>
          ((countText line).bind toDouble).map fun (v : ℚ) => (String.mk t1, (v : α))
        | _ => none := by
  rw [extractRecord_tokens]
  unfold countText
  split
  · rename_i t1 t2 rest heq
    simp only
    unfold extractNumber
    cases scanNumber t2 with
    | none => rfl
    | some p =>
      obtain ⟨x, r⟩ := p
      simp only [Option.map_some', Option.some_bind]
      cases toDouble x <;> rfl
  · rfl

theorem extractRecord_accepted (line : List Char)
    (h : (extractRecord (α := α) line).isSome = true) : lineAccepted line = true := by
  rw [extractRecord_tokens] at h
  unfold lineAccepted
  split at h
  · rename_i t1 t2 rest heq
    apply extractNumber_isSome_imp (α := α)
    cases hn : extractNumber (α := α) t2 with
    | none => simp [hn] at h
    | some p => rfl
  · simp at h

theorem extractRecord_of_not_accepted (line : List Char) (h : lineAccepted line = false) :
    extractRecord (α := α) line = none := by
  cases hr : extractRecord (α := α) line with
  | none => rfl
  | some r =>
    have := extractRecord_accepted (α := α) line (by rw [hr]; rfl)
    rw [h] at this
    cases this

theorem extractRecord_of_malformed (line : List Char) (h : malformed line = true) :
    extractRecord (α := α) line = none := by
  apply extractRecord_of_not_accepted
  unfold malformed at h
  unfold lineAccepted
  split at h
  · simp [*]
  · simp [*]
  · rename_i t _ heq
    rw [heq]
    simpa using h

theorem readLine_of_malformed (st : Table α × α) (line : List Char) (h : malformed line = true) :
    readLine st line = st := by
  unfold readLine
  rw [extractRecord_of_malformed line h]

theorem readLines_filter (m : Table α) (s : α) (lines : List (List Char)) :
    readLines m s (lines.filter fun l => !malformed l) = readLines m s lines := by
  unfold readLines
  generalize (m, s) = st
  induction lines generalizing st with
  | nil => rfl
  | cons l ls ih =>
    cases hl : malformed l with
    | true =>
      simp only [List.filter_cons, hl, Bool.not_true, Bool.false_eq_true, if_false,
        List.foldl_cons, readLine_of_malformed st l hl]
      exact ih st
    | false =>
      simp only [List.filter_cons, hl, Bool.not_false, if_true, List.foldl_cons]
      exact ih _

end Skipped

section Reading

variable {α : Type} [LinearOrderedField α]

theorem readLines_eq (m : Table α) (s : α) (lines : List (List Char)) :
    readLines m s lines
      = ((records lines).foldl (fun t r => t.assign r.1 r.2) m,
          s + ((records (α := α) lines).map Prod.snd).sum) := by
  unfold readLines
  induction lines generalizing m s with
  | nil => simp [records]
  | cons l ls ih =>
    rw [List.foldl_cons]
    cases h : extractRecord (α := α) l with
    | none =>
      have hstep : readLine (m, s) l = (m, s) := by simp [readLine, h]
      rw [hstep, ih]
      simp [records, List.filterMap_cons, h]
    | some r =>
      obtain ⟨k, c⟩ := r
      have hstep : readLine (m, s) l = (m.assign k c, s + c) := by simp [readLine, h]
      rw [hstep, ih]
      simp [records, List.filterMap_cons, h, add_assoc]

theorem Table.find_assign {β : Type} (m : Table β) (k : String) (v : β) (k' : String) :
    (m.assign k v).find k' = if k' = k then some v else m.find k' := by
  induction m with
  | nil =>
    simp only [Table.assign, Table.find_cons, Table.find_nil]
  | cons e m ih =>
    obtain ⟨k0, v0⟩ := e
    by_cases h0 : k0 = k
    · subst h0
      simp only [Table.assign, if_true, Table.find_cons]
      by_cases hk : k' = k0 <;> simp [hk]
    · simp only [Table.assign, h0, if_false, Table.find_cons, ih]
      by_cases hk : k' = k0
      · subst hk
        have : ¬ k' = k := h0
        simp [this]
      · simp [hk]

theorem lastCount_nil (k : String) : lastCount ([] : List (String × α)) k = none := rfl

theorem lastCount_cons (r : String × α) (rs : List (String × α)) (k : String) :
    lastCount (r :: rs) k
      = match lastCount rs k with
        | some c => some c
        | none => if k = r.1 then some r.2 else none := by
  unfold lastCount
  by_cases hk : k = r.1
  · subst hk
    simp only [List.filter_cons, decide_True, if_true]
    cases hf : rs.filter (fun x => decide (x.1 = r.1)) with
    | nil => simp
    | cons a l =>
      simp only [List.getLast?_cons_cons]
      cases hg : (a :: l).getLast? with
      | none => simp at hg
      | some x => rfl
  · have hk' : ¬ r.1 = k := fun h => hk h.symm
    simp only [List.filter_cons, hk', decide_False, Bool.false_eq_true, if_false, hk]
    cases ((rs.filter fun x => decide (x.1 = k)).getLast?) <;> rfl

theorem find_foldl_assign (rs : List (String × α)) (m : Table α) (k : String) :
    (rs.foldl (fun t r => t.assign r.1 r.2) m).find k
      = match lastCount rs k with
        | some c => some c
        | none => m.find k := by
  induction rs generalizing m with
  | nil => rfl
  | cons r rs ih =>
    rw [List.foldl_cons, ih, lastCount_cons, Table.find_assign]
    cases lastCount rs k <;> simp only
    by_cases hk : k = r.1 <;> simp [hk, Table.find_nil]

end Reading

/-! ## The reader -/

section Reader

open double

/-- C6 (duplicate-key policy of the reader): for every sequence of lines read from an empty map
and a zero total, the total is the sum of the counts of all well-formed lines, each occurrence of
a repeated key counted, and the map sends each key to the count of the last well-formed line
that carries it (and stores nothing for a key that no such line carries). -/
theorem readLines_duplicate_key_policy {α : Type} [LinearOrderedField α]
    (lines : List (List Char)) :
    (readLines ([] : Table α) 0 lines).2 = ((records (α := α) lines).map Prod.snd).sum
      ∧ ∀ k, (readLines ([] : Table α) 0 lines).1.find k = lastCount (records lines) k := by
  rw [readLines_eq]
  refine ⟨by simp, fun k => ?_⟩
  simp only
  rw [find_foldl_assign]
  cases lastCount (records (α := α) lines) k <;> rfl

/-- C7 fails on a repeated key: from the text with the lines `a 1` and `a 2`, read from an empty
map and a zero total, `readFFP` returns the map `a:2` with the total 3, which is not the sum 2 of
the stored values, and the value normalised in `runJSD` is 2/3 rather than 1. -/
theorem readFFP_repeated_key_total :
    readFFP (some "a 1\na 2".toList) ([] : Table ℚ) 0 = some ([("a", 2)], 3)
      ∧ tableSum ([("a", 2)] : Table ℚ) = 2
      ∧ normalize ([("a", 2)] : Table ℚ) 3 = [("a", val (2 / 3))] := by
  refine ⟨?_, by simp [tableSum], by simp [normalize, val_div_val]⟩
  simp [readFFP, readLines, getlines, readLine, extractRecord, extractString, extractDouble,
    extractNumber, scanNumber, toDouble_one, toDouble_two, extractSign, extractFraction,
    isspace, isdigit, digitsValue, signed]
  norm_num [Table.assign]

/-- C8 (malformed-line tolerance): for every text, and every map and total passed in, `readFFP`
returns the same map and the same total as on the text from which every malformed line is
deleted: every blank line, every line without a count token, and every line whose count token
does not begin with a number. -/
theorem readFFP_malformed_tolerance {α : Type} [LinearOrderedField α] (text : List Char)
    (ffp_map : Table α) (ffp_sum : α) :
    readFFP (some (unlines ((getlines text).filter fun l => !malformed l))) ffp_map ffp_sum
      = readFFP (some text) ffp_map ffp_sum := by
  unfold readFFP
  simp only
  rw [getlines_unlines _ fun l hl => getlines_no_newline text l (List.mem_filter.1 hl).1,
    readLines_filter]

/-- C9, as the claim states it, fails: a line with a further token after the count, a count with
trailing characters that are not numeric, and a negative count each yield a record, so map and
total change. -/
theorem readLine_accepts_other_shapes :
    tokens "a 1 x".toList = ["a".toList, "1".toList, "x".toList]
      ∧ readLine (([] : Table ℚ), 0) "a 1 x".toList = ([("a", 1)], 1)
      ∧ readLine (([] : Table ℚ), 0) "a 1x".toList = ([("a", 1)], 1)
      ∧ readLine (([] : Table ℚ), 0) "a -1".toList = ([("a", -1)], -1) := by
  refine ⟨by decide, ?_, ?_, ?_⟩ <;>
  simp [readLine, extractRecord, extractString, extractDouble, extractNumber, scanNumber,
    toDouble_one, toDouble_neg_one, extractSign, extractFraction, isspace, isdigit,
    digitsValue, signed] <;>
  norm_num [Table.assign]

/-- C9 (amended): `readFFP` takes a record from a line if and only if the line has at least two
whitespace-separated tokens, the second token begins with a number (an optional sign, digits
with at most one decimal point and at least one digit, and after an exponent mark an optional
sign and at least one digit), and the magnitude of that number is below `2 ^ 1024 - 2 ^ 970`, so
that it converts to a finite `double`; every other line leaves map and total unchanged.  The key
of the record is the first token and its count is the `double` nearest to the number read from
the second token alone: the number itself when it has at most 53 significant bits within the
exponent range, and 0 when its magnitude is at most `2 ^ (-1075)`.  The sign of the number, the
characters after it and further tokens do not matter. -/
theorem readLine_record_iff {α : Type} [LinearOrderedField α] (st : Table α × α)
    (line : List Char) :
    lineAccepted line = (countText line).isSome
      ∧ ((extractRecord (α := α) line).isSome = true ↔
          ∃ x, countText line = some x ∧ |x| < overflowBound)
      ∧ ((extractRecord (α := α) line).isSome = false → readLine st line = st)
      ∧ (∀ x, countText line = some x → |x| < overflowBound →
          ∃ t1 t2 rest v, tokens line = t1 :: t2 :: rest ∧ toDouble x = some v
            ∧ extractRecord (α := α) line = some (String.mk t1, (v : α))
            ∧ (∀ m e : ℤ, |m| < 2 ^ 53 → -1074 ≤ e → e ≤ 971 → x = m * 2 ^ e → v = x)
            ∧ (|x| ≤ 2 ^ (-1075 : ℤ) → v = 0)) := by
  have key : ∀ x, countText line = some x → |x| < overflowBound →
      ∃ t1 t2 rest v, tokens line = t1 :: t2 :: rest ∧ toDouble x = some v
        ∧ extractRecord (α := α) line = some (String.mk t1, (v : α))
        ∧ (∀ m e : ℤ, |m| < 2 ^ 53 → -1074 ≤ e → e ≤ 971 → x = m * 2 ^ e → v = x)
        ∧ (|x| ≤ 2 ^ (-1075 : ℤ) → v = 0) := by
    intro x hx hlt
    have hne : toDouble x ≠ none := by
      rw [Ne, toDouble_eq_none_iff, not_le]
      exact hlt
    obtain ⟨v, hv⟩ := Option.ne_none_iff_exists'.1 hne
    have hrec := extractRecord_countText (α := α) line
    rw [hx] at hrec
    have hct := hx
    unfold countText at hct
    split at hct
    · rename_i t1 t2 rest heq
      refine ⟨t1, t2, rest, v, heq, hv, ?_, ?_, ?_⟩
      · rw [hrec, heq]
        simp [hv]
      · intro m e hm h1 h2 hxe
        have := toDouble_of_representable m e hm h1 h2
        rw [← hxe, hv] at this
        exact Option.some.inj this
      · intro hsmall
        have := toDouble_underflow x hsmall
        rw [hv] at this
        exact Option.some.inj this
    · cases hct
  refine ⟨lineAccepted_eq_countText line, ⟨?_, ?_⟩, ?_, key⟩
  · intro h
    rw [extractRecord_countText] at h
    split at h
    · cases hc : countText line with
      | none => simp [hc] at h
      | some x =>
        refine ⟨x, rfl, ?_⟩
        by_contra hge
        rw [not_lt, ← toDouble_eq_none_iff] at hge
        simp [hc, hge] at h
    · simp at h
  · rintro ⟨x, hx, hlt⟩
    obtain ⟨t1, t2, rest, v, -, -, hrec, -⟩ := key x hx hlt
    rw [hrec]
    rfl
  · intro h
    unfold readLine
    cases hr : extractRecord (α := α) line with
    | none => rfl
    | some r => simp [hr] at h

end Reader

/-! ## Inputs without valid record -/

section ZeroRecords

open double

theorem readLines_of_records_nil {α : Type} [LinearOrderedField α] (u : α)
    (lines : List (List Char)) (h : records (α := α) lines = []) :
    readLines ([] : Table α) u lines = ([], u) := by
  rw [readLines_eq, h]
  simp

/-- C10, as the claim states it, fails: with an empty first input and the second input `x 1`,
and also with two empty inputs, `runJSD` calls no `exit`, prints no usage text and writes a
`JSD value=` line to the console and to the output file (one that can be opened), with the
values 1/2 and 0. -/
theorem runJSD_zero_records_reports :
    records (α := ℝ) (getlines "".toList) = []
      ∧ runJSD Real.log 0 0 (some "".toList) (some "x 1\n".toList) true
        = { usagePrinted := false, console := some (val (1 / 2)),
            outputFile := some (val (1 / 2)), exitStatus := none }
      ∧ runJSD Real.log 0 0 (some "".toList) (some "".toList) true
        = { usagePrinted := false, console := some (val 0), outputFile := some (val 0),
            exitStatus := none } := by
  have h2 : Real.log 2 ≠ 0 := log_two_pos.ne'
  have hr : readLines ([] : Table ℝ) 0 (getlines "x 1\n".toList) = ([("x", 1)], 1) := by
    simp [readLines, getlines, readLine, extractRecord, extractString, extractDouble,
      extractNumber, scanNumber, toDouble_zero, toDouble_one, toDouble_two, toDouble_neg_one,
      extractSign, extractFraction, isspace, isdigit, digitsValue, signed, Table.assign]
  have he : readLines ([] : Table ℝ) 0 (getlines "".toList) = ([], 0) := by
    simp [readLines, getlines]
  have hv : (computeJSD Real.log [] 0 [("x", 1)] 1).JSD_value = val (1 / 2) := by
    simp [computeJSD, normalize, mixFirstStep, mixSecondStep, accumulateStep, Table.contains,
      Table.find, Table.assign, Table.subscript, List.lookup, log_val, h2]
    field_simp
    ring
  refine ⟨by simp [records, getlines], ?_, ?_⟩
  · simp only [runJSD, readFFP, hr, he, hv, if_true]
  · simp only [runJSD, readFFP, he]
    rfl

/-- C10 (amended): for every pair of inputs that can be opened, also when one of them or both
have zero valid records, `runJSD` raises no error: it calls no `exit`, prints no usage text and
writes one `JSD value=` line to the console, and the same line to the output file when that
file can be opened.  With zero valid records in both inputs the value of the line is 0. -/
theorem runJSD_zero_records {α : Type} [LinearOrderedField α] (lg : α → α) (u1 u2 : α)
    (text1 text2 : List Char) (writable : Bool) :
    ∃ v, runJSD lg u1 u2 (some text1) (some text2) writable
          = { usagePrinted := false, console := some v,
              outputFile := if writable then some v else none, exitStatus := none }
      ∧ (records (α := α) (getlines text1) = [] → records (α := α) (getlines text2) = []
          → v = val 0) := by
  refine ⟨(computeJSD lg (readLines [] u1 (getlines text1)).1
      (readLines [] u1 (getlines text1)).2 (readLines [] u2 (getlines text2)).1
      (readLines [] u2 (getlines text2)).2).JSD_value, rfl, ?_⟩
  intro h1 h2
  rw [readLines_of_records_nil u1 _ h1, readLines_of_records_nil u2 _ h2]
  rfl

end ZeroRecords

/-! ## Sources that cannot be opened -/

section Unavailable

open double

/-- C11 (unavailable source): if either of the two inputs cannot be opened, the run ends in
`readFFP` with the usage text and `exit(0)`, whatever the other input holds: no `JSD value=`
line reaches the console, and the output file is not created. -/
theorem runJSD_unavailable {α : Type} [LinearOrderedField α] (lg : α → α) (u1 u2 : α)
    (ffp1_file ffp2_file : Option (List Char)) (writable : Bool)
    (h : ffp1_file = none ∨ ffp2_file = none) :
    runJSD lg u1 u2 ffp1_file ffp2_file writable
      = { usagePrinted := true, console := none, outputFile := none, exitStatus := some 0 } := by
  cases ffp1_file with
  | none => rfl
  | some text =>
    rcases h with h | h
    · cases h
    · subst h
      rfl

/-- Witness of C11: the first input is readable, the second cannot be opened. -/
theorem runJSD_unavailable_witness :
    runJSD Real.log 0 0 (some "x 1\n".toList) none true
      = { usagePrinted := true, console := none, outputFile := none, exitStatus := some 0 } :=
  runJSD_unavailable Real.log 0 0 (some "x 1\n".toList) none true (Or.inr rfl)

end Unavailable

/-! ## The maps of `runJSD` -/

section Maps

variable {α : Type} [LinearOrderedField α]

open double

theorem buildMixture_eq (n1 n2 : Table (double α)) (h1 : n1.keys.Nodup) (h2 : n2.keys.Nodup) :
    buildMixture n1 n2 = (n2, mixture n1 n2) := by
  unfold buildMixture
  simp only
  rw [mixFirst_fold _ _ _ h1 (by simp [Table.keys])]
  simp only [List.nil_append]
  rw [mixSecond_fold _ _ _ h2]
  · rfl
  · intro k _ hc
    rw [Table.keys_map_value]
    exact (Table.contains_eq_false_iff _ _).1 hc

theorem find_mixture (n1 n2 : Table (double α)) (h1 : n1.keys.Nodup) (h2 : n2.keys.Nodup)
    (k : String) (hk : k ∈ n1.keys ∨ k ∈ n2.keys) :
    (mixture n1 n2).find k = some (mixValue n1 n2 k) := by
  rw [mixture_eq n1 n2 h1 h2]
  have hnd := unionKeys_nodup n1 n2 h1 h2
  have hmem : k ∈ unionKeys n1 n2 := (mem_unionKeys n1 n2 k).2 hk
  have hkeys : Table.keys ((unionKeys n1 n2).map fun k => (k, mixValue n1 n2 k))
      = unionKeys n1 n2 := by
    simp [Table.keys, Function.comp_def]
  have hin : (k, mixValue n1 n2 k) ∈ (unionKeys n1 n2).map fun k => (k, mixValue n1 n2 k) :=
    List.mem_map.2 ⟨k, hmem, rfl⟩
  exact Table.find_of_mem (by rw [hkeys]; exact hnd) hin

theorem mixValue_eq_getOrZero (n1 n2 : Table (double α)) (k : String)
    (hk : k ∈ n1.keys ∨ k ∈ n2.keys) :
    mixValue n1 n2 k = (getOrZero n1 k + getOrZero n2 k) / val 2 := by
  unfold mixValue getOrZero
  cases h1 : n1.find k with
  | none =>
    cases h2 : n2.find k with
    | none =>
      exfalso
      rcases hk with hk | hk
      · exact (Table.find_eq_none_iff _ _).1 h1 hk
      · exact (Table.find_eq_none_iff _ _).1 h2 hk
    | some q => cases q <;> simp
  | some p =>
    cases h2 : n2.find k with
    | none => cases p <;> simp
    | some q => rfl

/-- C15 (mixture construction): for every two normalised maps, the keys of the mixture map that
the two loops build are exactly the keys of the one or the other map, and under every such key
the mixture map stores `(P1.get(k,0) + P2.get(k,0)) / 2`. -/
theorem buildMixture_spec (P1 P2 : Table (double α)) (h1 : P1.keys.Nodup) (h2 : P2.keys.Nodup) :
    (∀ k, k ∈ (buildMixture P1 P2).2.keys ↔ k ∈ P1.keys ∨ k ∈ P2.keys)
      ∧ ∀ k, k ∈ P1.keys ∨ k ∈ P2.keys →
          (buildMixture P1 P2).2.find k = some ((getOrZero P1 k + getOrZero P2 k) / val 2) := by
  rw [buildMixture_eq P1 P2 h1 h2]
  refine ⟨fun k => ?_, fun k hk => ?_⟩
  · simp only
    rw [mixture_eq P1 P2 h1 h2, ← mem_unionKeys]
    simp [Table.keys, Function.comp_def]
  · simp only
    rw [find_mixture P1 P2 h1 h2 k hk, mixValue_eq_getOrZero P1 P2 k hk]

/-- Witness of C15 on the normalised maps `x:1/2, y:1/2` and `x:1`. -/
theorem buildMixture_spec_witness :
    (∀ k, k ∈ (buildMixture ([("x", val (1 / 2)), ("y", val (1 / 2))] : Table (double ℚ))
          [("x", val 1)]).2.keys
        ↔ k ∈ Table.keys ([("x", val (1 / 2)), ("y", val (1 / 2))] : Table (double ℚ))
          ∨ k ∈ Table.keys ([("x", val 1)] : Table (double ℚ)))
      ∧ ∀ k, k ∈ Table.keys ([("x", val (1 / 2)), ("y", val (1 / 2))] : Table (double ℚ))
          ∨ k ∈ Table.keys ([("x", val 1)] : Table (double ℚ)) →
          (buildMixture ([("x", val (1 / 2)), ("y", val (1 / 2))] : Table (double ℚ))
              [("x", val 1)]).2.find k
            = some ((getOrZero [("x", val (1 / 2)), ("y", val (1 / 2))] k
                + getOrZero [("x", val 1)] k) / val 2) :=
  buildMixture_spec _ _ (by decide) (by decide)

theorem computeJSD_buildMixture (lg : α → α) (table1 : Table α) (sum1 : α) (table2 : Table α)
    (sum2 : α) :
    computeJSD lg table1 sum1 table2 sum2
      = (buildMixture (normalize table1 sum1) (normalize table2 sum2)).2.foldl
          (accumulateStep lg)
          { ffp1_map := normalize table1 sum1,
            ffp2_map := (buildMixture (normalize table1 sum1) (normalize table2 sum2)).1,
            affp_map := (buildMixture (normalize table1 sum1) (normalize table2 sum2)).2,
            JSD_value := val 0 } := rfl

/-- C17 (tables keep their entries): after the normalisation, mixture and accumulation steps
each of the two maps has exactly the keys of the parsed table, and stores under each key the
parsed count divided by the total of that table; no lookup has inserted a key and the later
steps have changed no value. -/
theorem computeJSD_tables_kept (lg : α → α) (table1 : Table α) (sum1 : α) (table2 : Table α)
    (sum2 : α) (h1 : table1.keys.Nodup) (h2 : table2.keys.Nodup) :
    (computeJSD lg table1 sum1 table2 sum2).ffp1_map.keys = table1.keys
      ∧ (computeJSD lg table1 sum1 table2 sum2).ffp2_map.keys = table2.keys
      ∧ (∀ k, (computeJSD lg table1 sum1 table2 sum2).ffp1_map.find k
          = (table1.find k).map fun c => val c / val sum1)
      ∧ (∀ k, (computeJSD lg table1 sum1 table2 sum2).ffp2_map.find k
          = (table2.find k).map fun c => val c / val sum2)
      ∧ (computeJSD lg table1 sum1 table2 sum2).ffp1_map = normalize table1 sum1
      ∧ (computeJSD lg table1 sum1 table2 sum2).ffp2_map = normalize table2 sum2 := by
  rw [computeJSD_eq lg table1 sum1 table2 sum2 h1 h2]
  exact ⟨keys_normalize _ _, keys_normalize _ _, fun k => find_normalize _ _ k,
    fun k => find_normalize _ _ k, rfl, rfl⟩

/-- Witness of C17 on the tables `x:2, y:2` and `x:4`, each with total 4. -/
theorem computeJSD_tables_kept_witness :
    (computeJSD Real.log [("x", 2), ("y", 2)] 4 [("x", 4)] 4).ffp1_map.keys
        = Table.keys ([("x", 2), ("y", 2)] : Table ℝ)
      ∧ (computeJSD Real.log [("x", 2), ("y", 2)] 4 [("x", 4)] 4).ffp2_map.keys
        = Table.keys ([("x", 4)] : Table ℝ)
      ∧ (∀ k, (computeJSD Real.log [("x", 2), ("y", 2)] 4 [("x", 4)] 4).ffp1_map.find k
          = (Table.find ([("x", 2), ("y", 2)] : Table ℝ) k).map fun c => val c / val 4)
      ∧ (∀ k, (computeJSD Real.log [("x", 2), ("y", 2)] 4 [("x", 4)] 4).ffp2_map.find k
          = (Table.find ([("x", 4)] : Table ℝ) k).map fun c => val c / val 4)
      ∧ (computeJSD Real.log [("x", 2), ("y", 2)] 4 [("x", 4)] 4).ffp1_map
          = normalize [("x", 2), ("y", 2)] 4
      ∧ (computeJSD Real.log [("x", 2), ("y", 2)] 4 [("x", 4)] 4).ffp2_map
          = normalize [("x", 4)] 4 :=
  computeJSD_tables_kept Real.log [("x", 2), ("y", 2)] 4 [("x", 4)] 4 (by decide) (by decide)

theorem normalize_scaleTable (c : α) (hc : c ≠ 0) (t : Table α) (s : α) :
    normalize (scaleTable c t) (c * s) = normalize t s := by
  unfold normalize scaleTable
  rw [List.map_map]
  apply List.map_congr_left
  intro e _
  simp only [Function.comp_apply, Prod.mk.injEq, true_and]
  by_cases hs : s = 0
  · simp [hs, val_div_val]
  · rw [val_div_val_of_ne _ hs, val_div_val_of_ne _ (mul_ne_zero hc hs),
      mul_div_mul_left _ _ hc]

theorem computeJSD_congr (lg : α → α) (t1 t1' : Table α) (s1 s1' : α) (t2 t2' : Table α)
    (s2 s2' : α) (h1 : normalize t1' s1' = normalize t1 s1)
    (h2 : normalize t2' s2' = normalize t2 s2) :
    computeJSD lg t1' s1' t2' s2' = computeJSD lg t1 s1 t2 s2 := by
  rw [computeJSD_buildMixture, computeJSD_buildMixture, h1, h2]

/-- Over exact real arithmetic, multiplying every count of one table and the total of that
table by a real `c > 0` leaves `JSD_value` unchanged, for the first table and for the second,
and two pairs of inputs with the same ratios count/total give the same value.  This is the
identity `(c * x) / (c * s) = x / s`, which rounded operations do not preserve in general. -/
theorem computeJSD_scale_invariant (table1 : Table ℝ) (sum1 : ℝ) (table2 : Table ℝ) (sum2 : ℝ)
    (c : ℝ) (hc : 0 < c) :
    (computeJSD Real.log (scaleTable c table1) (c * sum1) table2 sum2).JSD_value
        = (computeJSD Real.log table1 sum1 table2 sum2).JSD_value
      ∧ (computeJSD Real.log table1 sum1 (scaleTable c table2) (c * sum2)).JSD_value
        = (computeJSD Real.log table1 sum1 table2 sum2).JSD_value
      ∧ ∀ (t1 : Table ℝ) (s1 : ℝ) (t2 : Table ℝ) (s2 : ℝ),
          normalize t1 s1 = normalize table1 sum1 → normalize t2 s2 = normalize table2 sum2 →
          (computeJSD Real.log t1 s1 t2 s2).JSD_value
            = (computeJSD Real.log table1 sum1 table2 sum2).JSD_value := by
  refine ⟨?_, ?_, fun t1 s1 t2 s2 h1 h2 => ?_⟩
  · rw [computeJSD_congr Real.log table1 _ sum1 _ table2 table2 sum2 sum2
      (normalize_scaleTable c hc.ne' table1 sum1) rfl]
  · rw [computeJSD_congr Real.log table1 table1 sum1 sum1 table2 _ sum2 _ rfl
      (normalize_scaleTable c hc.ne' table2 sum2)]
  · rw [computeJSD_congr Real.log table1 t1 sum1 s1 table2 t2 sum2 s2 h1 h2]

end Maps

/-! ## The running sum and the entropies -/

section Entropy

variable {α : Type} [LinearOrderedField α]

open double

theorem neg_add_double (x y : double α) : neg (x + y) = neg x + neg y := by
  cases x <;> cases y <;> simp [neg_add, add_comm]

theorem neg_zero_double : neg (0 : double α) = 0 := by
  simp [zero_def]

theorem neg_sum_map {ι : Type} (l : List ι) (f : ι → double α) :
    (l.map fun i => neg (f i)).sum = neg ((l.map f).sum) := by
  induction l with
  | nil => exact neg_zero_double.symm
  | cons a l ih => simp only [List.map_cons, List.sum_cons, ih, neg_add_double]

theorem mul_add_double (c : α) (x y : double α) : val c * (x + y) = val c * x + val c * y := by
  cases x <;> cases y <;> simp [mul_add]

theorem mul_sum_map {ι : Type} (c : α) (l : List ι) (f : ι → double α) :
    val c * (l.map f).sum = (l.map fun i => val c * f i).sum := by
  induction l with
  | nil => simp [zero_def]
  | cons a l ih => simp only [List.map_cons, List.sum_cons, mul_add_double, ih]

theorem neg_mul_neg_double (c : α) (x : double α) : neg (val c * neg x) = val c * x := by
  cases x <;> simp

theorem mul_div_double (c : α) (x y z : double α) : val c * (x * y / z) = val c * x * y / z := by
  cases x <;> cases y <;> cases z <;> simp
  rename_i a b d
  by_cases hd : d = 0
  · simp [val_div_val, hd]
  · simp [val_div_val_of_ne _ hd, mul_assoc, mul_div_assoc]

theorem mul_div_assoc_double (x y z : double α) : x * (y / z) = x * y / z := by
  cases x <;> cases y <;> cases z <;> simp
  rename_i a b d
  by_cases hd : d = 0
  · simp [val_div_val, hd]
  · simp [val_div_val_of_ne _ hd, mul_div_assoc]

theorem entropy_eq (lg : α → α) (D : Table (double α)) :
    entropy lg D = neg ((D.map fun it => it.2 * log lg it.2 / log lg (val 2)).sum) := by
  unfold entropy log2
  congr 2
  apply List.map_congr_left
  intro e _
  exact mul_div_assoc_double _ _ _

theorem sum_halfTerm_keys (lg : α → α) (n : Table (double α)) (h : n.keys.Nodup)
    (ex : List String) (hex : ∀ k ∈ ex, k ∉ n.keys) :
    ((n.keys ++ ex).map (halfTerm lg n)).sum = neg (val (1 / 2) * entropy lg n) := by
  rw [List.map_append, List.sum_append]
  have h2 : (ex.map (halfTerm lg n)).sum = 0 := by
    apply List.sum_eq_zero
    intro y hy
    obtain ⟨k, hk, rfl⟩ := List.mem_map.1 hy
    unfold halfTerm
    rw [(Table.find_eq_none_iff n k).2 (hex k hk)]
  have h1 : (n.keys.map (halfTerm lg n)).sum
      = (n.map fun it => val (1 / 2) * (it.2 * log lg it.2 / log lg (val 2))).sum := by
    simp only [Table.keys, List.map_map]
    congr 1
    apply List.map_congr_left
    intro e he
    simp only [Function.comp_apply, halfTerm, Table.find_of_mem h he, mul_div_double]
  rw [h1, h2, add_zero, entropy_eq, neg_mul_neg_double, mul_sum_map]

theorem sum_halfTerm_left (lg : α → α) (n1 n2 : Table (double α)) (h1 : n1.keys.Nodup) :
    ((unionKeys n1 n2).map (halfTerm lg n1)).sum = neg (val (1 / 2) * entropy lg n1) := by
  unfold unionKeys
  apply sum_halfTerm_keys lg n1 h1
  intro k hk
  have := (List.mem_filter.1 hk).2
  simp only [Bool.not_eq_true', Table.contains_eq_false_iff] at this
  exact this

theorem sum_halfTerm_right (lg : α → α) (n1 n2 : Table (double α)) (h1 : n1.keys.Nodup)
    (h2 : n2.keys.Nodup) :
    ((unionKeys n1 n2).map (halfTerm lg n2)).sum = neg (val (1 / 2) * entropy lg n2) := by
  rw [((unionKeys_perm n1 n2 h1 h2).map (halfTerm lg n2)).sum_eq]
  exact sum_halfTerm_left lg n2 n1 h2

theorem sum_keyTerm_entropy (lg : α → α) (n1 n2 : Table (double α)) (h1 : n1.keys.Nodup)
    (h2 : n2.keys.Nodup) :
    ((unionKeys n1 n2).map (keyTerm lg n1 n2)).sum
      = entropy lg (mixture n1 n2) - val (1 / 2) * entropy lg n1
          - val (1 / 2) * entropy lg n2 := by
  have hsplit : (unionKeys n1 n2).map (keyTerm lg n1 n2)
      = (unionKeys n1 n2).map fun k =>
          (neg (mixValue n1 n2 k * log lg (mixValue n1 n2 k) / log lg (val 2))
            + halfTerm lg n1 k) + halfTerm lg n2 k := rfl
  rw [hsplit, List.sum_map_add, List.sum_map_add, neg_sum_map, sum_halfTerm_left lg n1 n2 h1,
    sum_halfTerm_right lg n1 n2 h1 h2, sub_def, sub_def]
  congr 2
  rw [entropy_eq, mixture_eq n1 n2 h1 h2, List.map_map]
  rfl

/-- C14 (running sum and entropy formula): for every two tables and totals, with `P1` and `P2`
the tables divided by their totals and `M` their mixture, which is the map that the mixture
loops build, the value that the single loop over the keys of the mixture map accumulates equals
`H(M) - 0.5*H(P1) - 0.5*H(P2)`, each entropy being summed over all the keys of its own map. -/
theorem computeJSD_entropy_formula (table1 : Table ℝ) (sum1 : ℝ) (table2 : Table ℝ) (sum2 : ℝ)
    (h1 : table1.keys.Nodup) (h2 : table2.keys.Nodup) :
    (computeJSD Real.log table1 sum1 table2 sum2).JSD_value
        = entropy Real.log (mixture (normalize table1 sum1) (normalize table2 sum2))
            - val (1 / 2) * entropy Real.log (normalize table1 sum1)
            - val (1 / 2) * entropy Real.log (normalize table2 sum2)
      ∧ (computeJSD Real.log table1 sum1 table2 sum2).affp_map
        = mixture (normalize table1 sum1) (normalize table2 sum2) := by
  rw [computeJSD_eq Real.log table1 sum1 table2 sum2 h1 h2]
  simp only [and_true]
  exact sum_keyTerm_entropy Real.log _ _ (by rw [keys_normalize]; exact h1)
    (by rw [keys_normalize]; exact h2)

/-- Witness of C14 on the tables `x:2, y:2` and `x:4`, each with total 4. -/
theorem computeJSD_entropy_formula_witness :
    (computeJSD Real.log [("x", 2), ("y", 2)] 4 [("x", 4)] 4).JSD_value
        = entropy Real.log
              (mixture (normalize [("x", 2), ("y", 2)] 4) (normalize [("x", 4)] 4))
            - val (1 / 2) * entropy Real.log (normalize [("x", 2), ("y", 2)] 4)
            - val (1 / 2) * entropy Real.log (normalize [("x", 4)] 4)
      ∧ (computeJSD Real.log [("x", 2), ("y", 2)] 4 [("x", 4)] 4).affp_map
        = mixture (normalize [("x", 2), ("y", 2)] 4) (normalize [("x", 4)] 4) :=
  computeJSD_entropy_formula [("x", 2), ("y", 2)] 4 [("x", 4)] 4 (by decide) (by decide)

end Entropy

/-! ## The partial-overlap scenario -/

section PartialOverlap

open double

theorem log_three_quarters : Real.log (3 / 4) = Real.log 3 - 2 * Real.log 2 := by
  rw [Real.log_div (by norm_num) (by norm_num), show (4 : ℝ) = 2 ^ 2 by norm_num, Real.log_pow]
  push_cast
  ring

theorem log_one_half : Real.log (1 / 2) = - Real.log 2 := by
  rw [Real.log_div (by norm_num) (by norm_num), Real.log_one]
  ring

theorem log_one_quarter : Real.log (1 / 4) = - (2 * Real.log 2) := by
  rw [Real.log_div (by norm_num) (by norm_num), Real.log_one, show (4 : ℝ) = 2 ^ 2 by norm_num,
    Real.log_pow]
  push_cast
  ring

theorem log_three_lower : 1584 * Real.log 2 < 1000 * Real.log 3 := by
  have h : (2 : ℝ) ^ 792 < 3 ^ 500 := by norm_num
  have hl := Real.log_lt_log (by positivity) h
  rw [Real.log_pow, Real.log_pow] at hl
  push_cast at hl
  linarith

theorem log_three_upper : 1000 * Real.log 3 < 1585 * Real.log 2 := by
  have h : (3 : ℝ) ^ 200 < 2 ^ 317 := by norm_num
  have hl := Real.log_lt_log (by positivity) h
  rw [Real.log_pow, Real.log_pow] at hl
  push_cast at hl
  linarith

/-- C13 (partial-overlap golden value): for `A = x:2, y:2` with total 4 and `B = x:4` with total
4, normalisation gives `x:1/2, y:1/2` and `x:1`, the mixture map is exactly `x:3/4, y:1/4`, and
`JSD_value` is `H(M) - 0.5*H(P1) - 0.5*H(P2) = 3/2 - (3/4) log2 3`, a strictly positive number
between 0.311 and 0.312. -/
theorem computeJSD_partial_overlap :
    normalize ([("x", 2), ("y", 2)] : Table ℝ) 4 = [("x", val (1 / 2)), ("y", val (1 / 2))]
      ∧ normalize ([("x", 4)] : Table ℝ) 4 = [("x", val 1)]
      ∧ (computeJSD Real.log [("x", 2), ("y", 2)] 4 [("x", 4)] 4).affp_map
          = [("x", val (3 / 4)), ("y", val (1 / 4))]
      ∧ (computeJSD Real.log [("x", 2), ("y", 2)] 4 [("x", 4)] 4).JSD_value
          = val (3 / 2 - 3 / 4 * (Real.log 3 / Real.log 2))
      ∧ entropy Real.log [("x", val (3 / 4)), ("y", val (1 / 4))]
            - val (1 / 2) * entropy Real.log [("x", val (1 / 2)), ("y", val (1 / 2))]
            - val (1 / 2) * entropy Real.log [("x", val 1)]
          = val (3 / 2 - 3 / 4 * (Real.log 3 / Real.log 2))
      ∧ (0.311 : ℝ) < 3 / 2 - 3 / 4 * (Real.log 3 / Real.log 2)
      ∧ 3 / 2 - 3 / 4 * (Real.log 3 / Real.log 2) < (0.312 : ℝ) := by
  have hl := log_two_pos.ne'
  have hpos := log_two_pos
  refine ⟨?_, ?_, ?_, ?_, ?_, ?_, ?_⟩
  · simp [normalize, val_div_val]
    norm_num
  · simp [normalize, val_div_val]
  · rw [computeJSD_eq _ _ _ _ _ (by decide) (by decide)]
    simp [mixture, normalize, mixFirstValue, Table.contains, Table.find, List.lookup,
      val_div_val]
    norm_num
  · rw [computeJSD_value _ _ _ _ _ (by decide) (by decide) (by simp) (by simp) hl]
    congr 1
    have hp : jsSum Real.log [("x", 2), ("y", 2)] 4 [("x", 4)] 4
        = jsTerm Real.log (1 / 2) 1 + jsTerm Real.log (1 / 2) 0 := by
      simp [jsSum, unionKeys, normalize, Table.keys, Table.contains, Table.find, List.lookup,
        prob]
      norm_num
    rw [hp, jsTerm_zero_right _ (by norm_num), jsTerm_eq]
    have e1 : ((1 : ℝ) / 2 + 1) / 2 = 3 / 4 := by norm_num
    rw [e1, log_three_quarters, log_one_half, Real.log_one]
    field_simp
    ring
  · have h34 : (0 : ℝ) < 3 / 4 := by norm_num
    have h14 : (0 : ℝ) < 1 / 4 := by norm_num
    have h12 : (0 : ℝ) < 1 / 2 := by norm_num
    simp only [entropy, log2, List.map_cons, List.map_nil, List.sum_cons, List.sum_nil,
      log_val_of_pos Real.log h34, log_val_of_pos Real.log h14, log_val_of_pos Real.log h12,
      log_val_of_pos Real.log one_pos, log_val_of_pos Real.log two_pos, val_mul_val,
      val_div_val_of_ne _ hl, zero_def, val_add_val, neg_val, val_sub_val,
      log_three_quarters, log_one_half, log_one_quarter, Real.log_one]
    congr 1
    field_simp
    ring
  · rw [lt_sub_iff_add_lt, ← lt_sub_iff_add_lt', mul_div_assoc', div_lt_iff₀ hpos]
    have := log_three_upper
    linarith
  · rw [sub_lt_iff_lt_add, ← sub_lt_iff_lt_add', mul_div_assoc', lt_div_iff₀ hpos]
    have := log_three_lower
    linarith

end PartialOverlap

/-! ## The arguments of the logarithm -/

section LogArguments

variable {α : Type} [LinearOrderedField α]

open double

theorem logArguments_congr (st st' : State α) (it : String × double α)
    (h1 : st'.ffp1_map = st.ffp1_map) (h2 : st'.ffp2_map = st.ffp2_map) :
    logArguments st' it = logArguments st it := by
  unfold logArguments
  rw [h1, h2]

theorem mem_logTrace (lg : α → α) (l : Table (double α)) (st : State α) (x : double α)
    (hx : x ∈ logTrace lg l st) : ∃ it ∈ l, x ∈ logArguments st it := by
  induction l generalizing st with
  | nil => simp [logTrace] at hx
  | cons e l ih =>
    simp only [logTrace, List.mem_append] at hx
    rcases hx with hx | hx
    · exact ⟨e, List.mem_cons_self _ _, hx⟩
    · obtain ⟨it, hit, hmem⟩ := ih _ hx
      refine ⟨it, List.mem_cons_of_mem _ hit, ?_⟩
      rw [accumulateStep_eq] at hmem
      exact hmem

theorem find_normalize_pos (t : Table α) (s : α) (k : String) (hq : ∀ e ∈ t, 0 < e.2 / s)
    (v : double α) (h : (normalize t s).find k = some v) : ∃ x, v = val x ∧ 0 < x := by
  rw [find_normalize] at h
  cases hf : t.find k with
  | none => simp [hf] at h
  | some c =>
    have hc : 0 < c / s := hq _ (Table.mem_of_find hf)
    rw [hf, Option.map_some', Option.some.injEq, val_div_val_of_ne _ (ne_zero_of_div_pos hc)] at h
    exact ⟨c / s, h.symm, hc⟩

theorem subscript_twice (n : Table (double α)) (k : String) (v : double α)
    (h : n.find k = some v) : ((n.subscript k).2.subscript k).1 = v := by
  rw [Table.subscript_of_find h]
  simp only
  rw [Table.subscript_of_find h]

theorem mixValue_normalize_pos (t1 : Table α) (s1 : α) (t2 : Table α) (s2 : α)
    (hq1 : ∀ e ∈ t1, 0 < e.2 / s1) (hq2 : ∀ e ∈ t2, 0 < e.2 / s2) (k : String)
    (hk : k ∈ unionKeys (normalize t1 s1) (normalize t2 s2)) :
    ∃ x, mixValue (normalize t1 s1) (normalize t2 s2) k = val x ∧ 0 < x := by
  rw [mem_unionKeys] at hk
  unfold mixValue
  cases h1 : (normalize t1 s1).find k with
  | none =>
    cases h2 : (normalize t2 s2).find k with
    | none =>
      exfalso
      rcases hk with hk | hk
      · exact (Table.find_eq_none_iff _ _).1 h1 hk
      · exact (Table.find_eq_none_iff _ _).1 h2 hk
    | some q =>
      obtain ⟨y, rfl, hy⟩ := find_normalize_pos t2 s2 k hq2 q h2
      exact ⟨y / 2, by simp, by positivity⟩
  | some p =>
    obtain ⟨x, rfl, hx⟩ := find_normalize_pos t1 s1 k hq1 p h1
    cases h2 : (normalize t2 s2).find k with
    | none => exact ⟨x / 2, by simp, by positivity⟩
    | some q =>
      obtain ⟨y, rfl, hy⟩ := find_normalize_pos t2 s2 k hq2 q h2
      exact ⟨(x + y) / 2, by simp, by positivity⟩

theorem logArguments_pos (t1 : Table α) (s1 : α) (t2 : Table α) (s2 : α)
    (hq1 : ∀ e ∈ t1, 0 < e.2 / s1) (hq2 : ∀ e ∈ t2, 0 < e.2 / s2) (st : State α)
    (hst1 : st.ffp1_map = normalize t1 s1) (hst2 : st.ffp2_map = normalize t2 s2)
    (k : String) (hk : k ∈ unionKeys (normalize t1 s1) (normalize t2 s2)) (x : double α)
    (hx : x ∈ logArguments st (k, mixValue (normalize t1 s1) (normalize t2 s2) k)) :
    ∃ v, x = val v ∧ 0 < v := by
  unfold logArguments at hx
  rw [hst1, hst2] at hx
  simp only [List.mem_append, List.mem_cons, List.mem_singleton, List.not_mem_nil, or_false]
    at hx
  rcases hx with (hx | hx) | hx
  · rcases hx with rfl | rfl
    · exact mixValue_normalize_pos t1 s1 t2 s2 hq1 hq2 k hk
    · exact ⟨2, rfl, two_pos⟩
  · unfold Table.contains at hx
    cases hf : (normalize t1 s1).find k with
    | none => simp [hf] at hx
    | some p =>
      simp only [hf, Option.isSome_some, if_true, List.mem_cons, List.mem_singleton,
        List.not_mem_nil, or_false, subscript_twice _ _ _ hf] at hx
      rcases hx with rfl | rfl
      · exact find_normalize_pos t1 s1 k hq1 _ hf
      · exact ⟨2, rfl, two_pos⟩
  · unfold Table.contains at hx
    cases hf : (normalize t2 s2).find k with
    | none => simp [hf] at hx
    | some p =>
      simp only [hf, Option.isSome_some, if_true, List.mem_cons, List.mem_singleton,
        List.not_mem_nil, or_false, subscript_twice _ _ _ hf] at hx
      rcases hx with rfl | rfl
      · exact find_normalize_pos t2 s2 k hq2 _ hf
      · exact ⟨2, rfl, two_pos⟩

theorem computeJSDLogs_pos_of_quotients (lg : α → α) (t1 : Table α) (s1 : α) (t2 : Table α)
    (s2 : α) (h1 : t1.keys.Nodup) (h2 : t2.keys.Nodup)
    (hq1 : ∀ e ∈ t1, 0 < e.2 / s1) (hq2 : ∀ e ∈ t2, 0 < e.2 / s2) (x : double α)
    (hx : x ∈ computeJSDLogs lg t1 s1 t2 s2) : ∃ v, x = val v ∧ 0 < v := by
  have hn1 : (normalize t1 s1).keys.Nodup := by rw [keys_normalize]; exact h1
  have hn2 : (normalize t2 s2).keys.Nodup := by rw [keys_normalize]; exact h2
  unfold computeJSDLogs at hx
  simp only at hx
  rw [buildMixture_eq _ _ hn1 hn2] at hx
  simp only at hx
  obtain ⟨it, hit, hmem⟩ := mem_logTrace lg _ _ x hx
  rw [mixture_eq _ _ hn1 hn2] at hit
  obtain ⟨k, hk, rfl⟩ := List.mem_map.1 hit
  exact logArguments_pos t1 s1 t2 s2 hq1 hq2 _ rfl rfl k hk x hmem

end LogArguments

section LogArgumentsReal

open double

/-- C16, as the claim states it, fails: the table `a:0, b:1` with total 1 has non-negative
counts and a strictly positive total, and against `b:1` the accumulation loop takes the
logarithm of zero (the mixture value and the probability of `a`). -/
theorem computeJSDLogs_zero_count :
    (∀ e ∈ ([("a", 0), ("b", 1)] : Table ℝ), 0 ≤ e.2) ∧ (0 : ℝ) < 1
      ∧ (∀ e ∈ ([("b", 1)] : Table ℝ), 0 ≤ e.2)
      ∧ val 0 ∈ computeJSDLogs Real.log [("a", 0), ("b", 1)] 1 [("b", 1)] 1 := by
  refine ⟨by simp, by norm_num, by simp, ?_⟩
  simp [computeJSDLogs, buildMixture, logTrace, logArguments, normalize, mixFirstStep,
    mixSecondStep, Table.contains, Table.find, Table.assign, Table.subscript, List.lookup]

/-- C16 (amended): for every two tables with strictly positive totals whose counts are strictly
positive and such that every quotient count/total lies between `2 ^ (-1000)` and `2 ^ 1000` (so
that no quotient or sum of the computation leaves the range of the normal `double` numbers),
every value whose logarithm is taken in the accumulation loop (the mixture value of every
mixture key, the probability of a key in the first map, the probability of a key in the second
map, and the constant 2) is a strictly positive real number. -/
theorem computeJSDLogs_pos (table1 : Table ℝ) (sum1 : ℝ) (table2 : Table ℝ) (sum2 : ℝ)
    (h1 : table1.keys.Nodup) (h2 : table2.keys.Nodup)
    (hs1 : 0 < sum1) (hrange1 : ∀ e ∈ table1, sum1 / 2 ^ 1000 ≤ e.2 ∧ e.2 ≤ 2 ^ 1000 * sum1)
    (hs2 : 0 < sum2) (hrange2 : ∀ e ∈ table2, sum2 / 2 ^ 1000 ≤ e.2 ∧ e.2 ≤ 2 ^ 1000 * sum2) :
    ∀ x ∈ computeJSDLogs Real.log table1 sum1 table2 sum2, ∃ v, x = val v ∧ 0 < v :=
  fun x hx => computeJSDLogs_pos_of_quotients Real.log table1 sum1 table2 sum2 h1 h2
    (quotients_pos _ _ (counts_pos_of_range _ _ hs1 hrange1) hs1)
    (quotients_pos _ _ (counts_pos_of_range _ _ hs2 hrange2) hs2) x hx

/-- Witness of C16 (amended) on the tables `x:2, y:2` and `x:4`, each with total 4: the mixture
value 3/4 of the key `x` is among the arguments of the logarithm, and is strictly positive. -/
theorem computeJSDLogs_pos_witness :
    val (3 / 4) ∈ computeJSDLogs Real.log [("x", 2), ("y", 2)] 4 [("x", 4)] 4
      ∧ ∃ v : ℝ, val (3 / 4 : ℝ) = val v ∧ 0 < v := by
  have hmem : val (3 / 4) ∈ computeJSDLogs Real.log [("x", 2), ("y", 2)] 4 [("x", 4)] 4 := by
    simp [computeJSDLogs, buildMixture, logTrace, logArguments, normalize, mixFirstStep,
      mixSecondStep, Table.contains, Table.find, Table.assign, Table.subscript, List.lookup,
      val_div_val]
    norm_num
  exact ⟨hmem, computeJSDLogs_pos [("x", 2), ("y", 2)] 4 [("x", 4)] 4 (by decide) (by decide)
    (by norm_num) (by simp; norm_num) (by norm_num) (by simp; norm_num) _ hmem⟩

end LogArgumentsReal

/-! ## Repeated keys and the bound -/

section RepeatedKeys

open double

end RepeatedKeys

/-! ## The scan of the arguments -/

section Scan

theorem argumentLoop_unknown (i : Nat) (x : String) (post : List String) (a : Arguments)
    (hx : x ∉ knownOptions) : argumentLoop i (x :: post) a = .exited 1 true := by
  simp only [knownOptions, List.mem_cons, List.mem_singleton, List.not_mem_nil, or_false,
    not_or] at hx
  obtain ⟨hf, hs, ho, ht, hv, hh⟩ := hx
  cases post with
  | nil => simp [argumentLoop, hf, hs, ho, ht, hv, hh]
  | cons value rest => simp [argumentLoop, hf, hs, ho, ht, hv, hh]

theorem threadsAfter_ge_one_iff (prev : Int) (text : List Char) (h : 1 ≤ prev) :
    1 ≤ threadsAfter prev text ↔ 1 ≤ threadsAfter 1 text := by
  unfold threadsAfter
  cases text.dropWhile isspace with
  | nil => simp [h]
  | cons c cs => exact Iff.rfl

theorem argumentLoop_pairs (pairs : List (String × String)) (i : Nat) (tail : List String)
    (a : Arguments) (ha : 1 ≤ a.number_threads) (hp : ∀ p ∈ pairs, validPair p) :
    argumentLoop i (flattenPairs pairs ++ tail) a
      = argumentLoop (i + 2 * pairs.length) tail (applyPairs pairs a) := by
  induction pairs generalizing i a with
  | nil => rfl
  | cons p ps ih =>
    have hps : ∀ q ∈ ps, validPair q := fun q hq => hp q (List.mem_cons_of_mem _ hq)
    have hidx : i + 2 + 2 * ps.length = i + 2 * (p :: ps).length := by
      simp only [List.length_cons]
      omega
    have hv := hp p (List.mem_cons_self _ _)
    simp only [flattenPairs, List.cons_append, applyPairs]
    rcases hv with h | h | h | ⟨h, ht⟩
    · simp only [argumentLoop, h, if_true]
      rw [ih (i + 2) { a with ffp1_file := p.2 } ha hps, hidx]
    · have hf : ¬ "-s" = "-f" := by decide
      simp only [argumentLoop, h, hf, if_false, if_true]
      rw [ih (i + 2) { a with ffp2_file := p.2 } ha hps, hidx]
    · have hf : ¬ "-o" = "-f" := by decide
      have hs : ¬ "-o" = "-s" := by decide
      simp only [argumentLoop, h, hf, hs, if_false, if_true]
      rw [ih (i + 2) { a with output_file := p.2 } ha hps, hidx]
    · have hf : ¬ "-t" = "-f" := by decide
      have hs : ¬ "-t" = "-s" := by decide
      have ho : ¬ "-t" = "-o" := by decide
      have hge : 1 ≤ threadsAfter a.number_threads p.2.toList :=
        (threadsAfter_ge_one_iff _ _ ha).2 ht
      have hlt : ¬ threadsAfter a.number_threads p.2.toList < 1 := not_lt.2 hge
      simp only [argumentLoop, h, hf, hs, ho, hlt, if_false, if_true]
      rw [ih (i + 2) { a with number_threads := threadsAfter a.number_threads p.2.toList }
        hge hps, hidx]

theorem applyPairs_ffp1_file (pairs : List (String × String)) (a : Arguments)
    (h : "-f" ∉ pairs.map Prod.fst) : (applyPairs pairs a).ffp1_file = a.ffp1_file := by
  induction pairs generalizing a with
  | nil => rfl
  | cons p ps ih =>
    simp only [List.map_cons, List.mem_cons, not_or] at h
    have hp : ¬ p.1 = "-f" := fun hp => h.1 hp.symm
    simp only [applyPairs, hp, if_false]
    rw [ih _ h.2]
    split_ifs <;> rfl

theorem applyPairs_ffp2_file (pairs : List (String × String)) (a : Arguments)
    (h : "-s" ∉ pairs.map Prod.fst) : (applyPairs pairs a).ffp2_file = a.ffp2_file := by
  induction pairs generalizing a with
  | nil => rfl
  | cons p ps ih =>
    simp only [List.map_cons, List.mem_cons, not_or] at h
    have hp : ¬ p.1 = "-s" := fun hp => h.1 hp.symm
    simp only [applyPairs, hp, if_false]
    rw [ih _ h.2]
    split_ifs <;> rfl

theorem runJSD_of_none_left {α : Type} [LinearOrderedField α] (lg : α → α) (u1 u2 : α)
    (f2 : Option (List Char)) (w : Bool) :
    runJSD lg u1 u2 none f2 w
      = { usagePrinted := true, console := none, outputFile := none, exitStatus := some 0 } :=
  rfl

theorem runJSD_of_none_right {α : Type} [LinearOrderedField α] (lg : α → α) (u1 u2 : α)
    (f1 : Option (List Char)) (w : Bool) :
    runJSD lg u1 u2 f1 none w
      = { usagePrinted := true, console := none, outputFile := none, exitStatus := some 0 } := by
  cases f1 <;> rfl

end Scan

/-! ## Bad invocations -/

section Invocation

open double

/-- C12, as the claim states it, fails: the vector `JSD -h -x` contains an unrecognised option
and the vector `JSD -s b` lacks the first input path, and both runs print the usage text and
end with status 0. -/
theorem main_status_zero :
    "-x" ∉ knownOptions
      ∧ main (fun _ => none) (fun _ => true) Real.log 0 0 0 ["JSD", "-h", "-x"]
        = .ended true none none 0
      ∧ main (fun _ => none) (fun _ => true) Real.log 0 0 0 ["JSD", "-s", "b"]
        = .ended true none none 0 := by
  refine ⟨by decide, ?_, ?_⟩
  · have h : initializeArguments ["JSD", "-h", "-x"]
        { number_threads := 0, ffp1_file := "", ffp2_file := "", output_file := "JSD_out.txt" }
        = .exited 0 true := by decide
    simp only [main, h]
  · have h : initializeArguments ["JSD", "-s", "b"]
        { number_threads := 0, ffp1_file := "", ffp2_file := "", output_file := "JSD_out.txt" }
        = .returned
          { number_threads := 1, ffp1_file := "", ffp2_file := "b",
            output_file := "JSD_out.txt" } := by decide
    simp only [main, h, runJSD_of_none_left]
    rfl

/-- C12 (amended): when the scan of the arguments reaches an unrecognised option, every earlier
argument being `-f`, `-s` or `-o` with its value or `-t` with a thread count of at least 1, the
program prints the usage text and ends with status 1 without a `JSD value=` line; and when the
arguments are only such options with their values and lack `-f` or lack `-s`, the program
prints the usage text and ends without a `JSD value=` line, the empty path being one that
cannot be opened. -/
theorem main_bad_invocation (fs : String → Option (List Char)) (wr : String → Bool) (n0 : Int)
    (u1 u2 : ℝ) (prog : String) (pairs : List (String × String))
    (hp : ∀ p ∈ pairs, validPair p) :
    (∀ (x : String) (post : List String), x ∉ knownOptions →
        main fs wr Real.log n0 u1 u2 (prog :: (flattenPairs pairs ++ x :: post))
          = .ended true none none 1)
      ∧ (fs "" = none → "-f" ∉ pairs.map Prod.fst ∨ "-s" ∉ pairs.map Prod.fst →
          ∃ status, main fs wr Real.log n0 u1 u2 (prog :: flattenPairs pairs)
            = .ended true none none status) := by
  constructor
  · intro x post hx
    unfold main initializeArguments
    simp only [List.drop_succ_cons, List.drop_zero]
    rw [argumentLoop_pairs pairs 1 (x :: post) _ (le_refl _) hp,
      argumentLoop_unknown _ x post _ hx]
  · intro hfs hlack
    refine ⟨0, ?_⟩
    unfold main initializeArguments
    simp only [List.drop_succ_cons, List.drop_zero]
    have happ := argumentLoop_pairs pairs 1 []
      (Arguments.mk 1 "" "" "JSD_out.txt") (le_refl _) hp
    rw [List.append_nil] at happ
    rw [happ]
    simp only [argumentLoop]
    rcases hlack with h | h
    · rw [applyPairs_ffp1_file pairs _ h]
      simp only [hfs, runJSD_of_none_left]
      rfl
    · rw [applyPairs_ffp2_file pairs _ h]
      simp only [hfs, runJSD_of_none_right]
      rfl

/-- Witness of C12 (amended): after `-s b -t 2` the scan reaches the unrecognised option `-x`,
and the arguments `-s b -t 2` alone lack the first input path. -/
theorem main_bad_invocation_witness :
    main (fun _ => none) (fun _ => true) Real.log 0 0 0
          ("JSD" :: (flattenPairs [("-s", "b"), ("-t", "2")] ++ "-x" :: ["y"]))
        = .ended true none none 1
      ∧ ∃ status, main (fun _ => none) (fun _ => true) Real.log 0 0 0
            ("JSD" :: flattenPairs [("-s", "b"), ("-t", "2")])
          = .ended true none none status :=
  have h := main_bad_invocation (fun _ => none) (fun _ => true) 0 0 0 "JSD"
    [("-s", "b"), ("-t", "2")] (by
    intro p hp
    simp only [List.mem_cons, List.mem_singleton, List.not_mem_nil, or_false] at hp
    rcases hp with rfl | rfl
    · exact Or.inr (Or.inl rfl)
    · exact Or.inr (Or.inr (Or.inr ⟨rfl, by decide⟩)))
  ⟨h.1 "-x" ["y"] (by decide), h.2 rfl (Or.inl (by decide))⟩

/-- C20 fails when a value-taking option is the last argument: for `JSD -f`, a vector of two
arguments, `initializeArguments` evaluates `arguments_vector[2]`, and likewise index 6 of the
six arguments `JSD -f a -s b -t`; the subscript is outside the vector and the behaviour of the
program is undefined. -/
theorem initializeArguments_out_of_range :
    ["JSD", "-f"].length = 2
      ∧ initializeArguments ["JSD", "-f"]
          { number_threads := 0, ffp1_file := "", ffp2_file := "",
            output_file := "JSD_out.txt" }
        = .outOfRange 2
      ∧ ["JSD", "-f", "a", "-s", "b", "-t"].length = 6
      ∧ initializeArguments ["JSD", "-f", "a", "-s", "b", "-t"]
          { number_threads := 0, ffp1_file := "", ffp2_file := "",
            output_file := "JSD_out.txt" }
        = .outOfRange 6
      ∧ main (fun _ => none) (fun _ => true) Real.log 0 0 0 ["JSD", "-f"]
        = .undefinedBehaviour 2 := by
  have h : initializeArguments ["JSD", "-f"]
      { number_threads := 0, ffp1_file := "", ffp2_file := "", output_file := "JSD_out.txt" }
      = .outOfRange 2 := by decide
  refine ⟨rfl, h, rfl, by decide, ?_⟩
  simp only [main, h]

end Invocation

end JSD
